import Mathlib

/-!
# Verification of the llmake prompt-DSL core (`src/llmake.py`)

This file gives a shallow embedding of the data model and the algorithms of
`llmake.py` — the dependency validator, the topological inheritance resolver
(`inherit_properties`), the prompt assembler (`get_prompt`) and the
recursive-descent parser (`Parser.parse_entry` / `parse_entries`) — and proves
the specified properties about them.

Conventions used throughout the embedding:
* Python dictionaries keyed by entry name are modelled as association lists
  `List (String × _)` preserving insertion order; dict update keeps the
  position of an existing key (as CPython does).
* A Python function that can raise an *uncaught* exception (`KeyError`,
  `IndexError`, `FileNotFoundError`, ...) is modelled in the `Option` monad,
  with `none` standing for the crash.  A *reported* failure (the `return False`
  / `return None` paths that write a message to stderr) is modelled by an
  explicit value carrying the message.
* `"." in s` is modelled by `hasPeriod`, `s.startswith("_")` by
  `isUnderscoreName`, both defined structurally on the character list so that
  everything evaluates by `decide`.
* The two unbounded loops of the source (the Kahn queue in `inherit_properties`
  and the BFS frontier in `get_prompt`) are modelled with explicit fuel. The
  fuel supplied is an over-approximation of the number of iterations either
  loop can perform (each loop iteration consumes one element of a queue whose
  total number of insertions is bounded by `entries.length + totalDeps`,
  resp. `1 + totalDeps`), so the fuel never runs out and the embedding agrees
  with the source on every input.
-/

namespace LLMake

/-- `"." in s` of the source (`dependency_to_str`, `validate_dependencies`,
`inherit_properties`, `get_prompt` all test this). -/
def hasPeriod (s : String) : Bool := s.data.contains '.'

/-- `s.startswith("_")` of the source (the macro test of `get_prompt`). -/
def isUnderscoreName (s : String) : Bool :=
  match s.data with
  | [] => false
  | c :: _ => c == '_'

/-- `dependency_to_str` (llmake.py line 91): a dependency containing a period
is used as a file name unchanged, otherwise `.txt` is appended. -/
def dependency_to_str (dep : String) : String :=
  if hasPeriod dep then dep else dep ++ ".txt"

/-- The `Entry` dataclass (llmake.py line 97). -/
structure Entry where
  name : String
  dependencies : List String
  text : String
  source_position : Nat × Nat
  llm_commands : List String
  validator_commands : List String
  auto_retry : Int
  deriving DecidableEq, Repr

/-- The `Prompts` dataclass: `entries` is a Python dict from name to `Entry`,
modelled as an association list in insertion order. -/
structure Prompts where
  entries : List (String × Entry)
  deriving DecidableEq, Repr

/-- Association-list lookup, the model of Python `d[k]` / `k in d`. -/
def alookup {α : Type} : List (String × α) → String → Option α
  | [], _ => none
  | p :: rest, k => if p.1 = k then some p.2 else alookup rest k

/-- Association-list update, the model of Python `d[k] = v`: an existing key
keeps its position, a new key is appended at the end. -/
def aset {α : Type} (l : List (String × α)) (k : String) (v : α) :
    List (String × α) :=
  if (alookup l k).isSome then
    l.map (fun p => if p.1 = k then (k, v) else p)
  else
    l ++ [(k, v)]

/-- The keys of the entry dict, in insertion order (`for name in self.entries`). -/
def keysOf (ps : Prompts) : List String := ps.entries.map Prod.fst

/-- Inner loop of `validate_dependencies` for one entry: first violating
dependency returns `false`. `ks` is the key set of the whole dict. -/
def validateDeps (ks : List String) (name : String) : List String → Bool
  | [] => true
  | dep :: rest =>
    if dep = name then false
    else if ¬ ks.contains dep ∧ ¬ hasPeriod dep then false
    else validateDeps ks name rest

/-- Outer loop of `validate_dependencies` over the entries in order. -/
def validateAllDeps (ks : List String) : List (String × Entry) → Bool
  | [] => true
  | (name, entry) :: rest =>
    if validateDeps ks name entry.dependencies then validateAllDeps ks rest
    else false

/-- `Prompts.validate_dependencies` (llmake.py line 153): `false` is the
reported (stderr + `return False`) failure; no exception can escape. -/
def validate_dependencies (ps : Prompts) : Bool :=
  validateAllDeps (keysOf ps) ps.entries

/-!
## `inherit_properties` (llmake.py lines 164–271)

Step 1 builds `deps_graph` (parent ↦ list of children, in insertion order of
the edges) and `indeg` (child ↦ number of dot-free dependency occurrences).
`deps_graph[parent_name]` raises `KeyError` when a dot-free dependency is not
an entry — modelled by `none`.
-/

/-- One edge insertion of step 1: `deps_graph[parent].append(child)` and
`indeg[child] += 1`, guarded by the `"." not in parent_name` test. -/
def buildStep (names : List String)
    (st : (String → List String) × (String → Int)) (child parent : String) :
    Option ((String → List String) × (String → Int)) :=
  if hasPeriod parent then some st
  else if names.contains parent then
    some (fun k => if k = parent then st.1 k ++ [child] else st.1 k,
          fun k => if k = child then st.2 k + 1 else st.2 k)
  else none

/-- Steps 1–2a of `inherit_properties`: the adjacency and in-degree maps. -/
def buildGraph (ps : Prompts) :
    Option ((String → List String) × (String → Int)) :=
  ps.entries.foldlM
    (fun st ce =>
      ce.2.dependencies.foldlM (fun st2 p => buildStep (keysOf ps) st2 ce.1 p) st)
    (fun _ => [], fun _ => 0)

/-- One decrement of the inner loop of the Kahn sort:
`indeg[nxt] -= 1; if indeg[nxt] == 0: queue.append(nxt)`. -/
def decStep (p : (String → Int) × List String) (nxt : String) :
    (String → Int) × List String :=
  let ind : String → Int := fun k => if k = nxt then p.1 k - 1 else p.1 k
  if ind nxt = 0 then (ind, p.2 ++ [nxt]) else (ind, p.2)

/-- The `while queue:` loop of step 2.  `queue.pop()` pops the *last* element.
The fuel is an upper bound on the number of iterations (see module comment). -/
def topoLoop (g : String → List String) :
    Nat → List String → (String → Int) → List String →
    List String × (String → Int)
  | 0, _, indeg, topo => (topo, indeg)
  | fuel + 1, queue, indeg, topo =>
    if h : queue = [] then (topo, indeg)
    else
      let node := queue.getLast h
      let pr := (g node).foldl decStep (indeg, queue.dropLast)
      topoLoop g fuel pr.2 pr.1 (topo ++ [node])

/-- Total number of dependency occurrences in the entry set. -/
def totalDeps (ps : Prompts) : Nat :=
  (ps.entries.map (fun ce => ce.2.dependencies.length)).sum

/-- Fuel bound for `topoLoop`: every queue insertion is either an initial
zero-in-degree node (≤ `entries.length`) or follows a decrement-to-zero
(≤ one per edge ≤ `totalDeps`). -/
def topoFuel (ps : Prompts) : Nat := ps.entries.length + totalDeps ps + 1

/-- The local maps `resolved_cmds`, `resolved_validators`, `resolved_retry`
of step 3. -/
structure RState where
  cmds : List (String × List String)
  valids : List (String × List String)
  retry : List (String × Int)
  deriving DecidableEq, Repr

/-- `parents_with_cmds` / `parents_with_validators`: the resolved lists of the
dot-free dependency occurrences that have a non-empty resolved list, in
dependency-list order.  `m.get(parent_name, [])` is `(alookup m p).getD []`. -/
def qualifyingLists (m : List (String × List String)) (deps : List String) :
    List (List String) :=
  deps.filterMap (fun p =>
    if hasPeriod p then none
    else
      let l := (alookup m p).getD []
      if l.isEmpty then none else some l)

/-- `parent_retries`: the positive resolved retry values of the dot-free
dependency occurrences, in dependency-list order. -/
def qualifyingRetries (m : List (String × Int)) (deps : List String) :
    List Int :=
  deps.filterMap (fun p =>
    if hasPeriod p then none
    else
      let r := (alookup m p).getD 0
      if r > 0 then some r else none)

/-- Python `max` of a non-empty list (callers guard emptiness; `0` is a dummy
for `[]`). -/
def listMax : List Int → Int
  | [] => 0
  | x :: xs => xs.foldl max x

/-- The `---------- Commands ----------` block of step 3 for one node.
`.error` is the stderr message followed by `return False`. -/
def resolveCmds (name : String) (own : List String) (deps : List String)
    (m : List (String × List String)) : Except String (List String) :=
  if ¬ own.isEmpty then .ok own
  else
    match qualifyingLists m deps with
    | [] => .ok []
    | [l] => .ok l
    | _ => .error ("Error: multiple parents of '" ++ name ++
        "' define commands. Ambiguous.\n")

/-- The `---------- Validators ----------` block of step 3 for one node. -/
def resolveValids (name : String) (own : List String) (deps : List String)
    (m : List (String × List String)) : Except String (List String) :=
  if ¬ own.isEmpty then .ok own
  else
    match qualifyingLists m deps with
    | [] => .ok []
    | [l] => .ok l
    | _ => .error ("Error: multiple parents of '" ++ name ++
        "' define validators. Ambiguous.\n")

/-- The `---------- Auto-Retry (TAKE MAX) ----------` block of step 3. -/
def resolveRetry (own : Int) (deps : List String)
    (m : List (String × Int)) : Int :=
  if own > 0 then own
  else
    match qualifyingRetries m deps with
    | [] => 0
    | r :: rs => listMax (r :: rs)

/-- One iteration of the step-3 loop (`for name in topo_order`).
`self.entries[name]` cannot fail for topo nodes, but the model stays total:
a missing key is the `KeyError` crash `none`. -/
def resolveNode (ps : Prompts) (rs : RState) (name : String) :
    Option (Except String RState) :=
  match alookup ps.entries name with
  | none => none
  | some entry =>
    match resolveCmds name entry.llm_commands entry.dependencies rs.cmds with
    | .error m => some (.error m)
    | .ok c =>
      match resolveValids name entry.validator_commands entry.dependencies
          rs.valids with
      | .error m => some (.error m)
      | .ok v =>
        let r := resolveRetry entry.auto_retry entry.dependencies rs.retry
        some (.ok ⟨aset rs.cmds name c, aset rs.valids name v,
                   aset rs.retry name r⟩)

/-- Step 3 over the whole topological order. -/
def resolveAll (ps : Prompts) : List String → RState →
    Option (Except String RState)
  | [], rs => some (.ok rs)
  | n :: rest, rs =>
    match resolveNode ps rs n with
    | none => none
    | some (.error m) => some (.error m)
    | some (.ok rs') => resolveAll ps rest rs'

/-- Step 4: `self.entries[name].llm_commands = resolved_cmds[name]` (and the
other two fields) for every entry; a key missing from a resolved map is the
`KeyError` crash `none`. -/
def writeBack (rs : RState) : List (String × Entry) →
    Option (List (String × Entry))
  | [] => some []
  | (k, e) :: rest =>
    match alookup rs.cmds k, alookup rs.valids k, alookup rs.retry k with
    | some c, some v, some r =>
      (writeBack rs rest).map (fun l =>
        (k, { e with llm_commands := c, validator_commands := v,
                     auto_retry := r }) :: l)
    | _, _, _ => none

/-- Step 2 in full: the initial queue is
`[n for n in self.entries if indeg[n] == 0]` and the loop yields `topo_order`. -/
def topoOrderOf (ps : Prompts) (g : String → List String)
    (indeg : String → Int) : List String :=
  (topoLoop g (topoFuel ps) ((keysOf ps).filter (fun n => indeg n == 0))
    indeg []).1

/-- `Prompts.inherit_properties` (llmake.py line 164).
Result: `none` = uncaught exception; `some (false, msgs, ps)` = stderr
message(s) and `return False` (entries untouched); `some (true, [], ps')` =
`return True` with the resolved entries written back. -/
def inherit_properties (ps : Prompts) :
    Option (Bool × List String × Prompts) :=
  match buildGraph ps with
  | none => none
  | some (g, indeg) =>
    match resolveAll ps (topoOrderOf ps g indeg) ⟨[], [], []⟩ with
    | none => none
    | some (.error m) => some (false, [m], ps)
    | some (.ok rs) =>
      match writeBack rs ps.entries with
      | none => none
      | some l => some (true, [], ⟨l⟩)

/-!
## `Prompts.get_prompt` (llmake.py lines 274–298)

The filesystem consumed by the assembler is a function `fs` from file name to
`Option` of the line list `file.readlines()` would return; `none` is a missing
file (uncaught `FileNotFoundError`).  Besides the assembled output the model
returns the list of file names the traversal opened (each `open(...)` call in
source order), so that "no artifact file is opened" is directly statable.
-/

/-- The `while frontier:` loop of `get_prompt`.  State: frontier (FIFO),
`explored` key set, the `prompts` accumulator, and the opened-file trace.
Result `.1`: `none` = the "no known prompt" `return None` *or* an uncaught
`FileNotFoundError`; `some l` = the final `reversed(prompts)`. -/
def gpLoop (ps : Prompts) (name : String) (fs : String → Option (List String)) :
    Nat → List String → List String → List String → List String →
    Option (List String) × List String
  | 0, _, _, _, opened => (none, opened)
  | fuel + 1, frontier, explored, prompts, opened =>
    match frontier with
    | [] => (some prompts.reverse, opened)
    | current :: rest =>
      if ¬ (keysOf ps).contains current ∧ ¬ hasPeriod current then
        (none, opened)
      else if hasPeriod current then
        -- dotted: no entry lookup, no enqueue; the branch test
        -- `(current == name or current.startswith("_")) and not "." in current`
        -- is false, so the file is opened.
        let fname := dependency_to_str current
        match fs fname with
        | none => (none, opened ++ [fname])
        | some lines =>
          gpLoop ps name fs fuel rest explored
            (prompts ++ [String.intercalate "\n\t" lines, current ++ ":"])
            (opened ++ [fname])
      else
        match alookup ps.entries current with
        | none => (none, opened)   -- unreachable: key test above succeeded
        | some entry =>
          if explored.contains entry.name then
            gpLoop ps name fs fuel rest explored prompts opened   -- continue
          else
            let explored' := explored ++ [entry.name]
            let frontier' := rest ++ entry.dependencies
            if current = name ∨ isUnderscoreName current then
              gpLoop ps name fs fuel frontier' explored'
                (prompts ++ [entry.text]) opened
            else
              let fname := dependency_to_str current
              match fs fname with
              | none => (none, opened ++ [fname])
              | some lines =>
                gpLoop ps name fs fuel frontier' explored'
                  (prompts ++ [String.intercalate "\n\t" lines, current ++ ":"])
                  (opened ++ [fname])

/-- Fuel bound for `gpLoop`: every frontier insertion is the initial request
or a dependency occurrence of a newly explored entry, so the number of
iterations is at most `1 + totalDeps`. -/
def gpFuel (ps : Prompts) : Nat := totalDeps ps + 2

/-- `Prompts.get_prompt` (llmake.py line 274). -/
def get_prompt (ps : Prompts) (name : String)
    (fs : String → Option (List String)) :
    Option (List String) × List String :=
  gpLoop ps name fs (gpFuel ps) [name] [] [] []

/-!
## Concrete instances used by the theorems
-/

namespace Examples

/-- Diamond: two roots both defining non-empty validator lists, a child (with
both as dependencies) defining none. -/
def diamondPS : Prompts := ⟨[
  ("p1", ⟨"p1", [], "t1", (1, 0), [], ["v1"], 0⟩),
  ("p2", ⟨"p2", [], "t2", (2, 0), [], ["v2"], 0⟩),
  ("child", ⟨"child", ["p1", "p2"], "t3", (3, 0), [], [], 0⟩)]⟩

/-- Like `diamondPS` but only `p1` defines a validator list. -/
def singleParentPS : Prompts := ⟨[
  ("p1", ⟨"p1", [], "t1", (1, 0), [], ["v1"], 0⟩),
  ("p2", ⟨"p2", [], "t2", (2, 0), [], [], 0⟩),
  ("child", ⟨"child", ["p1", "p2"], "t3", (3, 0), [], [], 0⟩)]⟩

/-- Parents with retry values {2, 3, 0} and a child with no own retry. -/
def retryPS : Prompts := ⟨[
  ("a", ⟨"a", [], "t", (1, 0), [], [], 2⟩),
  ("b", ⟨"b", [], "t", (2, 0), [], [], 3⟩),
  ("c", ⟨"c", [], "t", (3, 0), [], [], 0⟩),
  ("child", ⟨"child", ["a", "b", "c"], "t", (4, 0), [], [], 0⟩)]⟩

/-- Same as `retryPS` with the dependency list of the child reversed. -/
def retryRevPS : Prompts := ⟨[
  ("a", ⟨"a", [], "t", (1, 0), [], [], 2⟩),
  ("b", ⟨"b", [], "t", (2, 0), [], [], 3⟩),
  ("c", ⟨"c", [], "t", (3, 0), [], [], 0⟩),
  ("child", ⟨"child", ["c", "b", "a"], "t", (4, 0), [], [], 0⟩)]⟩

/-- A two-node dependency cycle `a -> b -> a`. -/
def cyclePS : Prompts := ⟨[
  ("a", ⟨"a", ["b"], "t", (1, 0), [], [], 0⟩),
  ("b", ⟨"b", ["a"], "t", (2, 0), [], [], 0⟩)]⟩

/-- Macro example: `_global` with text "A", `child: _global` with text "B". -/
def macroPS : Prompts := ⟨[
  ("_global", ⟨"_global", [], "A", (1, 0), [], [], 0⟩),
  ("child", ⟨"child", ["_global"], "B", (2, 0), [], [], 0⟩)]⟩

/-- Artifact example: non-macro `parent` with text "P", `child: parent`. -/
def artifactPS : Prompts := ⟨[
  ("parent", ⟨"parent", [], "P", (1, 0), [], [], 0⟩),
  ("child", ⟨"child", ["parent"], "C", (2, 0), [], [], 0⟩)]⟩

/-- The result of resolving `singleParentPS`: the child inherits exactly the
validator list of the single qualifying parent. -/
def singleParentResolvedPS : Prompts := ⟨[
  ("p1", ⟨"p1", [], "t1", (1, 0), [], ["v1"], 0⟩),
  ("p2", ⟨"p2", [], "t2", (2, 0), [], [], 0⟩),
  ("child", ⟨"child", ["p1", "p2"], "t3", (3, 0), [], ["v1"], 0⟩)]⟩

/-- The result of resolving `retryPS`: the child resolves to retry 3. -/
def retryResolvedPS : Prompts := ⟨[
  ("a", ⟨"a", [], "t", (1, 0), [], [], 2⟩),
  ("b", ⟨"b", [], "t", (2, 0), [], [], 3⟩),
  ("c", ⟨"c", [], "t", (3, 0), [], [], 0⟩),
  ("child", ⟨"child", ["a", "b", "c"], "t", (4, 0), [], [], 3⟩)]⟩

/-- The result of resolving `retryRevPS`: again retry 3, parent order reversed. -/
def retryRevResolvedPS : Prompts := ⟨[
  ("a", ⟨"a", [], "t", (1, 0), [], [], 2⟩),
  ("b", ⟨"b", [], "t", (2, 0), [], [], 3⟩),
  ("c", ⟨"c", [], "t", (3, 0), [], [], 0⟩),
  ("child", ⟨"child", ["c", "b", "a"], "t", (4, 0), [], [], 3⟩)]⟩

/-- The empty filesystem: every `open` fails. -/
def fsEmpty : String → Option (List String) := fun _ => none

/-- A filesystem holding exactly the artifact file `parent.txt`. -/
def fsParent : String → Option (List String) := fun f =>
  if f = "parent.txt" then some ["Q"] else none

end Examples

/-!
## Theorems

Helper lemmas first, then one theorem (plus witness where required) per claim.
-/

theorem validateDeps_eq_true (ks : List String) (n : String) (l : List String) :
    validateDeps ks n l = true ↔
      ∀ d ∈ l, d ≠ n ∧ (hasPeriod d = false → ks.contains d = true) := by
  induction l with
  | nil => simp [validateDeps]
  | cons d rest ih =>
    simp only [validateDeps, List.mem_cons, forall_eq_or_imp]
    by_cases h1 : d = n
    · simp [h1]
    · by_cases h2 : ¬ (ks.contains d = true) ∧ ¬ (hasPeriod d = true)
      · rw [if_neg h1, if_pos h2]
        constructor
        · intro hcon; simp at hcon
        · rintro ⟨⟨-, himp⟩, -⟩
          exact absurd (himp (by simpa using h2.2)) h2.1
      · rw [if_neg h1, if_neg h2, ih]
        have hok : d ≠ n ∧ (hasPeriod d = false → ks.contains d = true) := by
          refine ⟨h1, fun hp => ?_⟩
          rcases not_and_or.mp h2 with hc | hp2
          · simpa using hc
          · exact absurd hp (by simpa using hp2)
        exact ⟨fun hrest => ⟨hok, hrest⟩, fun hall => hall.2⟩

theorem validateAllDeps_eq_true (ks : List String) (l : List (String × Entry)) :
    validateAllDeps ks l = true ↔
      ∀ p ∈ l, validateDeps ks p.1 p.2.dependencies = true := by
  induction l with
  | nil => simp [validateAllDeps]
  | cons p rest ih =>
    obtain ⟨n, e⟩ := p
    by_cases h : validateDeps ks n e.dependencies = true
    · simp [validateAllDeps, h, ih]
    · simp only [validateAllDeps]
      rw [if_neg h]
      constructor
      · intro hf; exact absurd hf (by simp)
      · intro hall; exact absurd (hall (n, e) (by simp)) h

/-- C6: `validate_dependencies` returns `True` iff no entry lists a dependency
equal to its own name and every dot-free dependency name is a key of the entry
set; dependencies containing a period are exempt from the existence check.
The `Bool` result type shows the failure is a boolean signal, not an
exception. -/
theorem claim_C6 (ps : Prompts) :
    validate_dependencies ps = true ↔
      ∀ p ∈ ps.entries, ∀ dep ∈ p.2.dependencies,
        dep ≠ p.1 ∧ (hasPeriod dep = false → dep ∈ keysOf ps) := by
  unfold validate_dependencies
  rw [validateAllDeps_eq_true]
  constructor
  · intro h p hp dep hdep
    rcases (validateDeps_eq_true _ _ _).mp (h p hp) dep hdep with ⟨h1, h2⟩
    exact ⟨h1, fun hper => by simpa using (List.elem_iff.mp (h2 hper))⟩
  · intro h p hp
    rw [validateDeps_eq_true]
    intro d hd
    rcases h p hp d hd with ⟨h1, h2⟩
    exact ⟨h1, fun hper => List.elem_iff.mpr (h2 hper)⟩

theorem claim_C6_witness : validate_dependencies Examples.diamondPS = true :=
  (claim_C6 Examples.diamondPS).mpr (by decide)

/-- C10: whenever `inherit_properties` returns `False` (the reported ambiguity
failure), the entry set is returned unmutated: the resolved values live in the
local maps and are written into the entries only by step 4, which runs only
after the whole topological pass succeeded. -/
theorem claim_C10 (ps : Prompts) (b : Bool) (errs : List String) (ps2 : Prompts)
    (h : inherit_properties ps = some (b, errs, ps2)) (hb : b = false) :
    ps2 = ps := by
  subst hb
  unfold inherit_properties at h
  split at h
  · exact absurd h (by simp)
  · split at h
    · exact absurd h (by simp)
    · simp only [Option.some.injEq, Prod.mk.injEq] at h
      exact h.2.2.symm
    · split at h
      · exact absurd h (by simp)
      · simp only [Option.some.injEq, Prod.mk.injEq] at h
        exact absurd h.1 (by simp)

theorem claim_C10_witness : Examples.diamondPS = Examples.diamondPS :=
  claim_C10 Examples.diamondPS false
    ["Error: multiple parents of 'child' define validators. Ambiguous.\n"]
    Examples.diamondPS (by decide) rfl

/-- C3: assembling `child` in the macro example yields `["A", "B"]` — the last
element is the text of the requested entry, the macro text "A" comes earlier —
and the opened-file trace is empty for every filesystem: no artifact file is
opened for `_global`. -/
theorem claim_C3 :
    (∀ fs, get_prompt Examples.macroPS "child" fs = (some ["A", "B"], [])) ∧
    ["A", "B"].getLast? = some "B" ∧ "A" ∈ ["A", "B"].dropLast := by
  refine ⟨fun fs => rfl, by decide, by decide⟩

theorem claim_C3_witness :
    get_prompt Examples.macroPS "child" Examples.fsEmpty = (some ["A", "B"], []) :=
  claim_C3.1 Examples.fsEmpty

/-- C1: the inheritance trichotomy of step 3 for commands and validators.  For
a node whose own list is empty: more than one qualifying dependency occurrence
(a dot-free parent whose resolved list is non-empty) is the ambiguity error
naming the node, exactly one inherits that list unchanged, none resolves to
the empty list.  Concretely, the diamond with two validator-defining parents
always fails naming `child`, and with a single qualifying parent the child
resolves to exactly that list. -/
theorem claim_C1 :
    (∀ (name : String) (deps : List String) (m : List (String × List String)),
      1 < (qualifyingLists m deps).length →
        resolveValids name [] deps m = .error ("Error: multiple parents of '"
          ++ name ++ "' define validators. Ambiguous.\n") ∧
        resolveCmds name [] deps m = .error ("Error: multiple parents of '"
          ++ name ++ "' define commands. Ambiguous.\n")) ∧
    (∀ name deps m l, qualifyingLists m deps = [l] →
        resolveValids name [] deps m = .ok l ∧
        resolveCmds name [] deps m = .ok l) ∧
    (∀ name deps m, qualifyingLists m deps = [] →
        resolveValids name [] deps m = .ok [] ∧
        resolveCmds name [] deps m = .ok []) ∧
    inherit_properties Examples.diamondPS = some (false,
      ["Error: multiple parents of 'child' define validators. Ambiguous.\n"],
      Examples.diamondPS) ∧
    inherit_properties Examples.singleParentPS =
      some (true, [], Examples.singleParentResolvedPS) := by
  refine ⟨?_, ?_, ?_, by decide, by decide⟩
  · intro name deps m hlen
    rcases heq : qualifyingLists m deps with - | ⟨x, xs⟩
    · rw [heq] at hlen; simp at hlen
    · rcases xs with - | ⟨y, ys⟩
      · rw [heq] at hlen; simp at hlen
      · exact ⟨by simp [resolveValids, heq], by simp [resolveCmds, heq]⟩
  · intro name deps m l heq
    exact ⟨by simp [resolveValids, heq], by simp [resolveCmds, heq]⟩
  · intro name deps m heq
    exact ⟨by simp [resolveValids, heq], by simp [resolveCmds, heq]⟩

theorem claim_C1_witness :
    resolveValids "n" [] ["p"] [("p", ["v"])] = .ok ["v"] :=
  (claim_C1.2.1 "n" ["p"] [("p", ["v"])] ["v"] (by decide)).1

theorem listMax_mem (x : Int) (xs : List Int) : listMax (x :: xs) ∈ x :: xs := by
  induction xs generalizing x with
  | nil => simp [listMax]
  | cons a xs ih =>
    have h : listMax (x :: a :: xs) = listMax (max x a :: xs) := rfl
    rw [h]
    rcases List.mem_cons.mp (ih (max x a)) with hm | hm
    · rcases max_choice x a with hx | hx
      · rw [hm, hx]; exact List.mem_cons_self _ _
      · rw [hm, hx]; simp
    · simp [hm]

theorem le_listMax (x : Int) (xs : List Int) :
    ∀ y ∈ x :: xs, y ≤ listMax (x :: xs) := by
  induction xs generalizing x with
  | nil =>
    intro y hy
    rcases List.mem_cons.mp hy with rfl | hy'
    · simp [listMax]
    · simp at hy'
  | cons a xs ih =>
    intro y hy
    have h : listMax (x :: a :: xs) = listMax (max x a :: xs) := rfl
    rw [h]
    rcases List.mem_cons.mp hy with rfl | hy'
    · exact le_trans (le_max_left y a) (ih (max y a) _ (List.mem_cons_self _ _))
    · rcases List.mem_cons.mp hy' with rfl | hy2
      · exact le_trans (le_max_right x y) (ih (max x y) _ (List.mem_cons_self _ _))
      · exact ih (max x a) y (by simp [hy2])

theorem listMax_perm (l1 l2 : List Int) (hp : l1.Perm l2) (hne : l1 ≠ []) :
    listMax l1 = listMax l2 := by
  rcases l1 with - | ⟨x, xs⟩
  · exact absurd rfl hne
  rcases l2 with - | ⟨y, ys⟩
  · exact absurd hp.eq_nil (by simp)
  apply le_antisymm
  · exact le_listMax y ys _ (hp.mem_iff.mp (listMax_mem x xs))
  · exact le_listMax x xs _ (hp.symm.mem_iff.mp (listMax_mem y ys))

/-- C5: the retry rule of step 3.  A positive own retry is authoritative;
otherwise the result is the maximum of the qualifying (positive) resolved
parent retries, `0` when there are none, and is invariant under permutation
of the dependency list.  Concretely, a child with parents retrying {2, 3, 0}
resolves to 3 in either parent order. -/
theorem claim_C5 :
    (∀ (own : Int) (deps : List String) (m : List (String × Int)),
        0 < own → resolveRetry own deps m = own) ∧
    (∀ deps m, qualifyingRetries m deps = [] → resolveRetry 0 deps m = 0) ∧
    (∀ deps m, qualifyingRetries m deps ≠ [] →
        resolveRetry 0 deps m ∈ qualifyingRetries m deps ∧
        ∀ x ∈ qualifyingRetries m deps, x ≤ resolveRetry 0 deps m) ∧
    (∀ own deps1 deps2 m, deps1.Perm deps2 →
        resolveRetry own deps1 m = resolveRetry own deps2 m) ∧
    inherit_properties Examples.retryPS =
      some (true, [], Examples.retryResolvedPS) ∧
    inherit_properties Examples.retryRevPS =
      some (true, [], Examples.retryRevResolvedPS) := by
  refine ⟨?_, ?_, ?_, ?_, by decide, by decide⟩
  · intro own deps m h
    simp [resolveRetry, h]
  · intro deps m heq
    simp [resolveRetry, heq]
  · intro deps m hne
    rcases heq : qualifyingRetries m deps with - | ⟨r, rs⟩
    · exact absurd heq hne
    · have hval : resolveRetry 0 deps m = listMax (r :: rs) := by
        simp [resolveRetry, heq]
      rw [hval]
      exact ⟨listMax_mem r rs, le_listMax r rs⟩
  · intro own deps1 deps2 m hp
    unfold resolveRetry
    by_cases h : own > 0
    · simp [h]
    · simp only [if_neg h]
      have hq : (qualifyingRetries m deps1).Perm (qualifyingRetries m deps2) :=
        hp.filterMap _
      rcases h1 : qualifyingRetries m deps1 with - | ⟨r, rs⟩ <;>
        rcases h2 : qualifyingRetries m deps2 with - | ⟨r2, rs2⟩
      · rfl
      · rw [h1, h2] at hq; exact absurd hq.symm.eq_nil (by simp)
      · rw [h1, h2] at hq; exact absurd hq.eq_nil (by simp)
      · rw [h1, h2] at hq; exact listMax_perm _ _ hq (by simp)

theorem claim_C5_witness :
    resolveRetry 5 [] [] = 5 ∧ resolveRetry 0 ["a", "b"]
      [("a", (2 : Int)), ("b", 3)] ∈ qualifyingRetries
      [("a", (2 : Int)), ("b", 3)] ["a", "b"] :=
  ⟨claim_C5.1 5 [] [] (by decide),
   (claim_C5.2.2.1 ["a", "b"] [("a", (2 : Int)), ("b", 3)] (by decide)).1⟩

/-- What the assembler is allowed to open: a dotted reference under its own
name, or `X ++ ".txt"` for a dot-free reference that is neither the requested
entry nor a macro. -/
def openedOk (nm f : String) : Prop :=
  ∃ X, (hasPeriod X = true ∧ f = X) ∨
    (hasPeriod X = false ∧ isUnderscoreName X = false ∧ X ≠ nm ∧
      f = X ++ ".txt")

theorem openedOk_extend (nm : String) (opened : List String) (fname : String)
    (h : ∀ f ∈ opened, openedOk nm f) (hf : openedOk nm fname) :
    ∀ f ∈ opened ++ [fname], openedOk nm f := by
  intro f hf2
  rcases List.mem_append.mp hf2 with h1 | h1
  · exact h f h1
  · simp only [List.mem_singleton] at h1
    subst h1
    exact hf

theorem openedOk_dotted (nm cur : String) (hp : hasPeriod cur = true) :
    openedOk nm (dependency_to_str cur) :=
  ⟨cur, Or.inl ⟨hp, by simp [dependency_to_str, hp]⟩⟩

theorem openedOk_plain (nm cur : String) (hp : hasPeriod cur = false)
    (hm : ¬ (cur = nm ∨ isUnderscoreName cur = true)) :
    openedOk nm (dependency_to_str cur) := by
  push_neg at hm
  exact ⟨cur, Or.inr ⟨hp, by simpa using hm.2, hm.1,
    by simp [dependency_to_str, hp]⟩⟩

theorem gpLoop_opened (ps : Prompts) (nm : String)
    (fs : String → Option (List String)) :
    ∀ (fuel : Nat) (frontier explored prompts opened : List String),
      (∀ f ∈ opened, openedOk nm f) →
      ∀ f ∈ (gpLoop ps nm fs fuel frontier explored prompts opened).2,
        openedOk nm f := by
  intro fuel
  induction fuel with
  | zero =>
    intro frontier explored prompts opened h f hf
    simp only [gpLoop] at hf
    exact h f hf
  | succ n ih =>
    intro frontier explored prompts opened h f hf
    rcases frontier with - | ⟨current, rest⟩
    · simp only [gpLoop] at hf
      exact h f hf
    · simp only [gpLoop] at hf
      by_cases h1 : ¬ ((keysOf ps).contains current = true) ∧
          ¬ (hasPeriod current = true)
      · rw [if_pos h1] at hf
        exact h f hf
      · rw [if_neg h1] at hf
        by_cases h2 : hasPeriod current = true
        · rw [if_pos h2] at hf
          rcases hfs : fs (dependency_to_str current) with - | lines <;>
            rw [hfs] at hf
          · exact openedOk_extend nm opened _ h (openedOk_dotted nm current h2)
              f hf
          · exact ih _ _ _ _
              (openedOk_extend nm opened _ h (openedOk_dotted nm current h2))
              f hf
        · rw [if_neg h2] at hf
          rcases hal : alookup ps.entries current with - | entry <;>
            rw [hal] at hf <;> dsimp only at hf
          · exact h f hf
          · by_cases h3 : explored.contains entry.name = true
            · rw [if_pos h3] at hf
              exact ih _ _ _ _ h f hf
            · rw [if_neg h3] at hf
              by_cases h4 : current = nm ∨ isUnderscoreName current = true
              · rw [if_pos h4] at hf
                exact ih _ _ _ _ h f hf
              · rw [if_neg h4] at hf
                rcases hfs : fs (dependency_to_str current) with - | lines <;>
                  rw [hfs] at hf
                · exact openedOk_extend nm opened _ h
                    (openedOk_plain nm current (by simpa using h2) h4) f hf
                · exact ih _ _ _ _
                    (openedOk_extend nm opened _ h
                      (openedOk_plain nm current (by simpa using h2) h4)) f hf

/-- C4: assembling `child` over `parent` opens the file literally named
`parent.txt` (failing when it is absent) and never uses the declared text
"P"; in general every file the assembler opens is a dotted reference under
its own name or `X ++ ".txt"` for a dot-free, non-requested, non-macro
reference `X`. -/
theorem claim_C4 :
    get_prompt Examples.artifactPS "child" Examples.fsEmpty
      = (none, ["parent.txt"]) ∧
    get_prompt Examples.artifactPS "child" Examples.fsParent
      = (some ["parent:", "Q", "C"], ["parent.txt"]) ∧
    "P" ∉ ["parent:", "Q", "C"] ∧
    ∀ ps nm fs, ∀ f ∈ (get_prompt ps nm fs).2, openedOk nm f := by
  refine ⟨by decide, by decide, by decide, ?_⟩
  intro ps nm fs f hf
  exact gpLoop_opened ps nm fs (gpFuel ps) [nm] [] [] [] (by simp) f hf

theorem claim_C4_witness : openedOk "child" "parent.txt" :=
  claim_C4.2.2.2 Examples.artifactPS "child" Examples.fsParent "parent.txt"
    (by decide)

/-!
## The parser (`Parser`, llmake.py lines 311–513)

The lexer is CPython `tokenize`, an external collaborator: the embedding
works on its output, a token list whose index 0 is the ENCODING token (the
source skips it by starting at index 1).  A raised `ParseError` is
`.error (.parseError msg tok)` (the `source_lines` payload, used only for
terminal rendering, is dropped); any other uncaught exception
(`IndexError` of `self.tokens[self.index]`, `ValueError` of `int(...)`) is
`.error .crash`.  Python truthiness drives `accept` and `expect`:
`None` and the empty string are falsy.  `pyRepr` models `repr` applied to
the token strings appearing here (no single quotes, backslashes or control
characters, where `repr` is plain single-quote wrapping).
-/

/-- The token kinds of `tokenize` used by the parser. -/
inductive TokType
  | NAME | OP | STRING | NUMBER | NEWLINE | NL | INDENT | DEDENT
  | ENDMARKER | ENCODING
  deriving DecidableEq, Repr

/-- `tokenize.tok_name` restricted to the kinds above. -/
def tok_name : TokType → String
  | .NAME => "NAME"
  | .OP => "OP"
  | .STRING => "STRING"
  | .NUMBER => "NUMBER"
  | .NEWLINE => "NEWLINE"
  | .NL => "NL"
  | .INDENT => "INDENT"
  | .DEDENT => "DEDENT"
  | .ENDMARKER => "ENDMARKER"
  | .ENCODING => "ENCODING"

/-- A `tokenize` token: kind, raw text, `start` position. -/
structure Token where
  type : TokType
  string : String
  start : Nat × Nat
  deriving DecidableEq, Repr

/-- The `TOKEN_NAMES` dictionary (llmake.py line 30). -/
def TOKEN_NAMES (k : String) : Option String :=
  if k = "colons" then some "':'"
  else if k = "comma" then some "','"
  else if k = "period" then some "'.'"
  else if k = "indent" then some "INDENT (⏩ expected indentation)"
  else if k = "deindent" then some "DEDENT (⏪ expected dedentation)"
  else if k = "newline" then some "NEWLINE (expected end of line)"
  else if k = "string" then some "a \"string\" (e.g., \"text here\")"
  else if k = "name" then some "a NAME (e.g., variable or keyword)"
  else none

/-- Python `repr` of the token strings used in this development. -/
def pyRepr (s : String) : String := "'" ++ s ++ "'"

/-- Parser failure: a raised `ParseError` (message and offending token), or
any other uncaught exception. -/
inductive PErr
  | parseError (message : String) (token : Token)
  | crash
  deriving DecidableEq, Repr

/-- The mutable parser state: the token list, `self.index`, `self.current`. -/
structure PState where
  tokens : List Token
  index : Nat
  current : Token
  deriving DecidableEq, Repr

/-- `Parser.__init__`: `self.index = 1; self.current = self.tokens[1]`
(`IndexError` on a token list without index 1). -/
def initParser (tokens : List Token) : Option PState :=
  match tokens.get? 1 with
  | none => none
  | some t => some ⟨tokens, 1, t⟩

/-- `Parser.next`: increment the index; if it equals the length the current
token is kept, past the length `self.tokens[self.index]` is an `IndexError`. -/
def pnext (st : PState) : Option PState :=
  let idx := st.index + 1
  if st.tokens.length = idx then some { st with index := idx }
  else
    match st.tokens.get? idx with
    | some t => some { st with index := idx, current := t }
    | none => none

/-- A recognizer method passed to `accept` / `expect`: its `__name__` (the
`TOKEN_NAMES` key) and its return value on the current token (`none` =
Python `None` / `False`, `some s` = the string `s` or, for the boolean
recognizers, `True` encoded as `some "True"`). -/
structure PElem where
  key : String
  value : Token → Option String

/-- Python truthiness of a recognizer result: `None`, `False` and the empty
string are falsy. -/
def truthyV : Option String → Bool
  | none => false
  | some s => !s.data.isEmpty

/-- `self.current.string[1:-1]` (character slicing). -/
def strSlice1m1 (s : String) : String := ⟨(s.data.drop 1).dropLast⟩

/-- `Parser.name` (returns the token string or `None`). -/
def elName : PElem :=
  ⟨"name", fun t => if t.type = .NAME then some t.string else none⟩

/-- `Parser.colons`. -/
def elColons : PElem :=
  ⟨"colons", fun t =>
    if t.type = .OP ∧ t.string = ":" then some "True" else none⟩

/-- `Parser.newline` (NEWLINE or NL). -/
def elNewline : PElem :=
  ⟨"newline", fun t =>
    if t.type = .NEWLINE ∨ t.type = .NL then some "True" else none⟩

/-- `Parser.string` (strips the quote characters; an empty string literal is
falsy, exactly as in the source). -/
def elString : PElem :=
  ⟨"string", fun t =>
    if t.type = .STRING then some (strSlice1m1 t.string) else none⟩

/-- `Parser.end`. -/
def elEnd : PElem :=
  ⟨"end", fun t => if t.type = .ENDMARKER then some "True" else none⟩

/-- `Parser.indent`. -/
def elIndent : PElem :=
  ⟨"indent", fun t => if t.type = .INDENT then some "True" else none⟩

/-- `Parser.period`. -/
def elPeriod : PElem :=
  ⟨"period", fun t =>
    if t.type = .OP ∧ t.string = "." then some "True" else none⟩

/-- `Parser.comma`. -/
def elComma : PElem :=
  ⟨"comma", fun t =>
    if t.type = .OP ∧ t.string = "," then some "True" else none⟩

/-- `Parser.deindent`. -/
def elDeindent : PElem :=
  ⟨"deindent", fun t => if t.type = .DEDENT then some "True" else none⟩

/-- `Parser.accept`: consume iff the recognizer is truthy; always return its
value. -/
def acceptE (el : PElem) (st : PState) :
    Except PErr (Option String × PState) :=
  let v := el.value st.current
  if truthyV v then
    match pnext st with
    | none => .error .crash
    | some st2 => .ok (v, st2)
  else .ok (v, st)

/-- `Parser.expect`: like `accept` but a falsy recognizer raises the
`ParseError` built from `TOKEN_NAMES` (default: the method name itself), the
`repr` of the offending token text, and `tokenize.tok_name` of its kind. -/
def expectE (el : PElem) (st : PState) : Except PErr (String × PState) :=
  let v := el.value st.current
  if truthyV v then
    match pnext st with
    | none => .error .crash
    | some st2 => .ok (v.getD "", st2)
  else
    .error (.parseError
      ("Expected " ++ ((TOKEN_NAMES el.key).getD el.key) ++
        " – got token " ++ pyRepr st.current.string ++ " (type: " ++
        tok_name st.current.type ++ ")")
      st.current)

/-- The `while self.accept(self.period)` loop of `parse_depency`. -/
def depLoop : Nat → String → PState → Except PErr (String × PState)
  | 0, _, _ => .error .crash
  | fuel + 1, text, st => do
    let (v, st1) ← acceptE elPeriod st
    if truthyV v then
      let (nm, st2) ← expectE elName st1
      depLoop fuel (text ++ "." ++ nm) st2
    else .ok (text, st1)

/-- `Parser.parse_depency` (name kept as in the source). -/
def parse_depency (fuel : Nat) (st : PState) : Except PErr (String × PState) := do
  let (text, st1) ← expectE elName st
  depLoop fuel text st1

/-- `while self.current.type in (tokenize.NEWLINE, tokenize.NL): self.next()`. -/
def skipNLs : Nat → PState → Except PErr PState
  | 0, _ => .error .crash
  | fuel + 1, st =>
    if st.current.type = .NEWLINE ∨ st.current.type = .NL then
      match pnext st with
      | none => .error .crash
      | some st1 => skipNLs fuel st1
    else .ok st

/-- `while self.accept(self.newline): pass`. -/
def skipAcceptNLs : Nat → PState → Except PErr PState
  | 0, _ => .error .crash
  | fuel + 1, st => do
    let (v, st1) ← acceptE elNewline st
    if truthyV v then skipAcceptNLs fuel st1 else .ok st1

/-- The dependency list loop of `parse_entry`
(`while True: ... if not self.accept(self.comma): break`). -/
def depsLoop (fuel0 : Nat) :
    Nat → List String → PState → Except PErr (List String × PState)
  | 0, _, _ => .error .crash
  | fuel + 1, deps, st => do
    let (d, st1) ← parse_depency fuel0 st
    let (v, st2) ← acceptE elComma st1
    if truthyV v then depsLoop fuel0 fuel (deps ++ [d]) st2
    else .ok (deps ++ [d], st2)

/-- The dynamically-typed values of the `fields` dict of `parse_entry`:
a plain string, a list of strings (repeated key), or the validator list of
`{"cmd": ..., "retry": ...}` dicts. -/
inductive FieldVal
  | s (v : String)
  | l (vs : List String)
  | vlist (vs : List (String × Int))
  deriving DecidableEq, Repr

/-- A decimal digit. -/
def digitVal (c : Char) : Option Nat :=
  if '0' ≤ c ∧ c ≤ '9' then some (c.toNat - '0'.toNat) else none

/-- Accumulate decimal digits; any non-digit fails. -/
def digitsToNat (acc : Nat) : List Char → Option Nat
  | [] => some acc
  | c :: cs =>
    match digitVal c with
    | none => none
    | some d => digitsToNat (acc * 10 + d) cs

/-- Python `int(s)` on the strings reaching it here (an optional sign and
decimal digits; anything else is a `ValueError` crash). -/
def pyInt (s : String) : Option Int :=
  match s.data with
  | [] => none
  | '-' :: [] => none
  | '-' :: c :: cs => (digitsToNat 0 (c :: cs)).map (fun n => -(n : Int))
  | cs => (digitsToNat 0 cs).map (fun n => (n : Int))

/-- The `validator` branch of the body loop: the optional `retry N` suffix,
the append to `fields["validator"]`, and the running max in
`fields["auto_retry"]` (stored as `str(max(old, line_retry))`). -/
def validatorField (fields : List (String × FieldVal)) (line_str : String)
    (st4 : PState) : Except PErr (List (String × FieldVal) × PState) := do
  let (vr, st5) ← acceptE elName st4
  let (lr, st6) ←
    (if vr = some "retry" then
      (if st5.current.type = .NUMBER then
        match pyInt st5.current.string with
        | none => Except.error PErr.crash
        | some n =>
          match pnext st5 with
          | none => Except.error PErr.crash
          | some st6 => Except.ok ((n : Int), st6)
      else
        Except.error (PErr.parseError "Expected a number after 'retry'"
          st5.current))
    else Except.ok ((0 : Int), st5))
  let vlistOld ←
    (match alookup fields "validator" with
     | none => Except.ok ([] : List (String × Int))
     | some (FieldVal.vlist vs) => Except.ok vs
     | some _ => Except.error PErr.crash)
  let fields1 := aset fields "validator"
    (FieldVal.vlist (vlistOld ++ [(line_str, lr)]))
  let fields2 ←
    (if lr > 0 then
      match
        (match alookup fields1 "auto_retry" with
         | none => some (0 : Int)
         | some (FieldVal.s sv) => pyInt sv
         | some _ => none) with
      | none => Except.error PErr.crash
      | some old =>
        Except.ok (aset fields1 "auto_retry" (FieldVal.s (toString (max old lr))))
    else Except.ok fields1)
  Except.ok (fields2, st6)

/-- The generic-key branch of the body loop: first occurrence stores the
string, a repetition turns it into (or extends) a list.  `fields[key]` can
never hold the validator shape here (the `validator` key always takes the
other branch), so that case is the unreachable `AttributeError` crash. -/
def genericField (fields : List (String × FieldVal)) (key line_str : String) :
    Except PErr (List (String × FieldVal)) :=
  match alookup fields key with
  | none => .ok (aset fields key (FieldVal.s line_str))
  | some (FieldVal.l vs) => .ok (aset fields key (FieldVal.l (vs ++ [line_str])))
  | some (FieldVal.s v0) => .ok (aset fields key (FieldVal.l [v0, line_str]))
  | some (FieldVal.vlist _) => .error .crash

/-- The `while self.current.type != tokenize.DEDENT` body loop of
`parse_entry`. -/
def bodyLoop (fuel0 : Nat) :
    Nat → List (String × FieldVal) → PState →
    Except PErr (List (String × FieldVal) × PState)
  | 0, _, _ => .error .crash
  | fuel + 1, fields, st =>
    if st.current.type = .DEDENT then .ok (fields, st)
    else do
      let (v, st1) ← acceptE elNewline st
      if truthyV v then bodyLoop fuel0 fuel fields st1
      else do
        let (key, st2) ← expectE elName st1
        let (_, st3) ← expectE elColons st2
        let (line_str, st4) ← expectE elString st3
        let (fields2, st6) ←
          (if key = "validator" then validatorField fields line_str st4
           else do
             let f ← genericField fields key line_str
             Except.ok (f, st4))
        let st7 ← skipAcceptNLs fuel0 st6
        bodyLoop fuel0 fuel fields2 st7

/-- `Parser.parse_entry` (llmake.py line 384).  The model restricts the final
`text` field to the plain-string shape: a document re-keying `text` inside
the body would make Python build an `Entry` whose `text` is a list (failing
only later when used); the model makes that unreachable shape a crash. -/
def parse_entry (fuel0 : Nat) (st : PState) : Except PErr (Entry × PState) := do
  let position := st.current.start
  let (name, st1) ← expectE elName st
  let (_, st2) ← expectE elColons st1
  let (vnl, st3) ← acceptE elNewline st2
  let (dependencies, st4) ←
    (if truthyV vnl then Except.ok (([] : List String), st3)
     else do
       let (deps, st4a) ← depsLoop fuel0 fuel0 [] st3
       let (_, st4b) ← expectE elNewline st4a
       Except.ok (deps, st4b))
  let (_, st5) ← expectE elIndent st4
  let st6 ← skipNLs fuel0 st5
  let (field_text, st7) ← expectE elString st6
  let (fields, st8) ← bodyLoop fuel0 fuel0 [("text", FieldVal.s field_text)] st7
  let (_, st9) ← expectE elDeindent st8
  let textVal ←
    (match alookup fields "text" with
     | none =>
       Except.error (PErr.parseError "Missing 'text' field in entry."
         st9.current)
     | some (FieldVal.s t) => Except.ok t
     | some _ => Except.error PErr.crash)
  let llm_commands ←
    (match alookup fields "command" with
     | none => Except.ok ([] : List String)
     | some (FieldVal.l vs) => Except.ok vs
     | some (FieldVal.s v) => Except.ok [v]
     | some (FieldVal.vlist _) => Except.error PErr.crash)
  let validator_commands ←
    (match alookup fields "validator" with
     | none => Except.ok ([] : List String)
     | some (FieldVal.vlist vs) => Except.ok (vs.map Prod.fst)
     | some _ => Except.error PErr.crash)
  let auto_retry ←
    (match alookup fields "auto_retry" with
     | none => Except.ok (0 : Int)
     | some (FieldVal.s sv) =>
       match pyInt sv with
       | none => Except.error PErr.crash
       | some n => Except.ok n
     | some _ => Except.error PErr.crash)
  Except.ok (⟨name, dependencies, textVal, position, llm_commands,
    validator_commands, auto_retry⟩, st9)

/-- The `while not self.accept(self.end)` loop of `parse_entries`.  A
duplicate name is the reported failure: stderr message plus `return None`. -/
def parse_entries_loop (fuel0 : Nat) :
    Nat → List (String × Entry) → PState →
    Except PErr ((Option Prompts × List String) × PState)
  | 0, _, _ => .error .crash
  | fuel + 1, entries, st => do
    let (v, st1) ← acceptE elEnd st
    if truthyV v then .ok ((some ⟨entries⟩, []), st1)
    else do
      let st2 ← skipAcceptNLs fuel0 st1
      let (entry, st3) ← parse_entry fuel0 st2
      if (alookup entries entry.name).isSome then
        .ok ((none, ["Error: Multiple definitions of prompt " ++ entry.name
          ++ ".\n"]), st3)
      else
        parse_entries_loop fuel0 fuel (entries ++ [(entry.name, entry)]) st3

/-- `Parser.parse_entries` over a `tokenize` token list (index 0 is the
ENCODING token).  Result: raised error, or `(None, stderr)` on a duplicate
name, or the parsed `Prompts`. -/
def parse_entries (tokens : List Token) :
    Except PErr (Option Prompts × List String) :=
  match initParser tokens with
  | none => .error .crash
  | some st =>
    (parse_entries_loop (tokens.length + 2) (tokens.length + 2) [] st).map
      Prod.fst

namespace Examples

/-- Token builder. -/
def tk (ty : TokType) (s : String) (r c : Nat) : Token := ⟨ty, s, (r, c)⟩

/-- Token stream of a document defining the entry name `a` twice. -/
def dupTokens : List Token := [
  tk .ENCODING "utf-8" 0 0,
  tk .NAME "a" 1 0, tk .OP ":" 1 1, tk .NEWLINE "\n" 1 2,
  tk .INDENT "    " 2 0, tk .STRING "\"x\"" 2 4, tk .NEWLINE "\n" 2 7,
  tk .DEDENT "" 3 0,
  tk .NAME "a" 3 0, tk .OP ":" 3 1, tk .NEWLINE "\n" 3 2,
  tk .INDENT "    " 4 0, tk .STRING "\"y\"" 4 4, tk .NEWLINE "\n" 4 7,
  tk .DEDENT "" 5 0, tk .ENDMARKER "" 5 0]

/-- Token stream of the body line `command "cmd"` missing its colon. -/
def c9Tokens : List Token := [
  tk .ENCODING "utf-8" 0 0,
  tk .NAME "city" 1 0, tk .OP ":" 1 4, tk .NEWLINE "\n" 1 5,
  tk .INDENT "    " 2 0, tk .STRING "\"Describe a futuristic city\"" 2 4,
  tk .NEWLINE "\n" 2 32,
  tk .NAME "command" 3 4, tk .STRING "\"cmd\"" 3 12, tk .NEWLINE "\n" 3 17,
  tk .DEDENT "" 4 0, tk .ENDMARKER "" 4 0]

/-- Token stream of a well-formed two-entry document (`b` depends on `a`). -/
def goodTokens : List Token := [
  tk .ENCODING "utf-8" 0 0,
  tk .NAME "a" 1 0, tk .OP ":" 1 1, tk .NEWLINE "\n" 1 2,
  tk .INDENT "    " 2 0, tk .STRING "\"x\"" 2 4, tk .NEWLINE "\n" 2 7,
  tk .DEDENT "" 3 0,
  tk .NAME "b" 3 0, tk .OP ":" 3 1, tk .NAME "a" 3 3, tk .NEWLINE "\n" 3 4,
  tk .INDENT "    " 4 0, tk .STRING "\"y\"" 4 4, tk .NEWLINE "\n" 4 7,
  tk .NAME "command" 5 4, tk .OP ":" 5 11, tk .STRING "\"c1\"" 5 13,
  tk .NEWLINE "\n" 5 18,
  tk .DEDENT "" 6 0, tk .ENDMARKER "" 6 0]

/-- What `goodTokens` parses to. -/
def goodParsedPS : Prompts := ⟨[
  ("a", ⟨"a", [], "x", (1, 0), [], [], 0⟩),
  ("b", ⟨"b", ["a"], "y", (3, 0), ["c1"], [], 0⟩)]⟩

end Examples

theorem alookup_eq_none {α : Type} (l : List (String × α)) (k : String) :
    alookup l k = none ↔ k ∉ l.map Prod.fst := by
  induction l with
  | nil => simp [alookup]
  | cons p rest ih =>
    by_cases h : p.1 = k
    · simp [alookup, h]
    · simp [alookup, h, ih, Ne.symm h]

theorem parse_entries_loop_nodup (fuel0 : Nat) :
    ∀ (fuel : Nat) (entries : List (String × Entry)) (st : PState)
      (ps : Prompts) (msgs : List String) (st2 : PState),
      (entries.map Prod.fst).Nodup →
      parse_entries_loop fuel0 fuel entries st = .ok ((some ps, msgs), st2) →
      (ps.entries.map Prod.fst).Nodup := by
  intro fuel
  induction fuel with
  | zero =>
    intro entries st ps msgs st2 hnd h
    exact absurd h (by simp [parse_entries_loop])
  | succ n ih =>
    intro entries st ps msgs st2 hnd h
    rw [parse_entries_loop] at h
    rcases hacc : acceptE elEnd st with e | ⟨v, st1⟩ <;> rw [hacc] at h
    · exact absurd h (by simp [Bind.bind, Except.bind])
    · simp only [Bind.bind, Except.bind] at h
      by_cases hv : truthyV v = true
      · rw [if_pos hv] at h
        simp only [Except.ok.injEq, Prod.mk.injEq] at h
        obtain ⟨⟨hps, -⟩, -⟩ := h
        obtain rfl : Prompts.mk entries = ps := Option.some.inj hps
        exact hnd
      · rw [if_neg hv] at h
        rcases hskip : skipAcceptNLs fuel0 st1 with e | st2a <;>
          rw [hskip] at h <;> dsimp only at h
        · exact absurd h (by simp)
        · rcases hpe : parse_entry fuel0 st2a with e | ⟨entry, st3⟩ <;>
            rw [hpe] at h <;> dsimp only at h
          · exact absurd h (by simp)
          · by_cases hdup : (alookup entries entry.name).isSome = true
            · rw [if_pos hdup] at h
              exact absurd h (by simp)
            · rw [if_neg hdup] at h
              have hnotin : entry.name ∉ entries.map Prod.fst :=
                (alookup_eq_none entries entry.name).mp
                  (Option.not_isSome_iff_eq_none.mp hdup)
              have hnd2 : ((entries ++ [(entry.name, entry)]).map
                  Prod.fst).Nodup := by
                rw [List.map_append]
                refine List.Nodup.append hnd (by simp) ?_
                intro a ha hb
                simp only [List.map_cons, List.map_nil,
                  List.mem_singleton] at hb
                subst hb
                exact hnotin ha
              exact ih _ _ _ _ _ hnd2 h

/-- C8: a successful parse can never contain two entries with the same name
(general, over every token stream), and a document defining `a` twice fails
as the reported value `None` with a stderr message naming the duplicate —
not as a raised parse error. -/
theorem claim_C8 :
    (∀ (tokens : List Token) (ps : Prompts) (msgs : List String),
        parse_entries tokens = .ok (some ps, msgs) → (keysOf ps).Nodup) ∧
    parse_entries Examples.dupTokens =
      .ok (none, ["Error: Multiple definitions of prompt a.\n"]) := by
  refine ⟨?_, by rfl⟩
  intro tokens ps msgs h
  unfold parse_entries at h
  rcases hinit : initParser tokens with - | st <;> rw [hinit] at h <;>
    dsimp only at h
  · exact absurd h (by simp)
  · rcases hloop : parse_entries_loop (tokens.length + 2) (tokens.length + 2)
        [] st with e | ⟨⟨op, ms⟩, st2⟩ <;> rw [hloop] at h
    · exact absurd h (by simp [Except.map])
    · simp only [Except.map, Except.ok.injEq, Prod.mk.injEq] at h
      obtain ⟨hop, hms⟩ := h
      rw [hop, hms] at hloop
      exact parse_entries_loop_nodup _ _ _ _ _ _ _ (by simp) hloop

theorem claim_C8_witness : (keysOf Examples.goodParsedPS).Nodup :=
  claim_C8.1 Examples.goodTokens Examples.goodParsedPS [] (by rfl)

/-- C9: the body line `command "cmd"` (missing colon after the key) raises a
parse error whose message is exactly the `expect` format — it extends
`Expected ':'` — and whose offending token has kind STRING, rendered as
"STRING" by the token-name table. -/
theorem claim_C9 :
    parse_entries Examples.c9Tokens = .error (.parseError
      "Expected ':' – got token '\"cmd\"' (type: STRING)"
      ⟨.STRING, "\"cmd\"", (3, 12)⟩) ∧
    (∃ rest, "Expected ':' – got token '\"cmd\"' (type: STRING)" =
      "Expected ':'" ++ rest) ∧
    tok_name .STRING = "STRING" :=
  ⟨by rfl, ⟨" – got token '\"cmd\"' (type: STRING)", by rfl⟩, rfl⟩

/-!
## Infrastructure for the idempotence and cycle theorems
-/

theorem alookup_map_set {α : Type} (l : List (String × α)) (k : String)
    (v : α) (k2 : String) :
    alookup (l.map (fun p => if p.1 = k then (k, v) else p)) k2 =
      if k2 = k then (if (alookup l k).isSome then some v else none)
      else alookup l k2 := by
  induction l with
  | nil => simp [alookup]
  | cons p l ih =>
    by_cases hp : p.1 = k <;> by_cases hk : k2 = k
    · subst hk
      simp [alookup, hp]
    · have hpk2 : ¬ p.1 = k2 := fun hc => hk (hc.symm.trans hp)
      have hk2 : ¬ k = k2 := fun hc => hk hc.symm
      simp [alookup, hp, hk, hpk2, hk2, ih]
    · subst hk
      have hpk2 : ¬ p.1 = k2 := hp
      simp [alookup, hp, hpk2, ih]
    · by_cases hpk2 : p.1 = k2
      · simp [alookup, hp, hk, hpk2]
      · simp [alookup, hp, hk, hpk2, ih]

theorem alookup_append_single {α : Type} (l : List (String × α)) (k : String)
    (v : α) (k2 : String) :
    alookup (l ++ [(k, v)]) k2 =
      match alookup l k2 with
      | some w => some w
      | none => if k = k2 then some v else none := by
  induction l with
  | nil => simp [alookup]
  | cons p l ih =>
    by_cases hp : p.1 = k2
    · simp [alookup, hp]
    · simp only [List.cons_append, alookup, if_neg hp]
      exact ih

theorem alookup_aset {α : Type} (l : List (String × α)) (k : String) (v : α)
    (k2 : String) :
    alookup (aset l k v) k2 = if k2 = k then some v else alookup l k2 := by
  unfold aset
  by_cases hsome : (alookup l k).isSome = true
  · rw [if_pos hsome, alookup_map_set]
    by_cases hk : k2 = k
    · rw [if_pos hk, if_pos hsome, if_pos hk]
    · rw [if_neg hk, if_neg hk]
  · rw [if_neg hsome, alookup_append_single]
    have hnone := Option.not_isSome_iff_eq_none.mp hsome
    by_cases hk : k2 = k
    · subst hk
      rw [hnone]
    · have hk2 : ¬ k = k2 := fun hc => hk hc.symm
      rcases halk : alookup l k2 with - | w
      · simp [hk, hk2]
      · simp [hk]

theorem alookup_aset_self {α : Type} (l : List (String × α)) (k : String)
    (v : α) : alookup (aset l k v) k = some v := by
  rw [alookup_aset, if_pos rfl]

theorem alookup_aset_ne {α : Type} (l : List (String × α)) (k : String)
    (v : α) (k2 : String) (h : k2 ≠ k) :
    alookup (aset l k v) k2 = alookup l k2 := by
  rw [alookup_aset, if_neg h]

theorem qualifyingLists_ne_nil (m : List (String × List String))
    (deps : List String) (l : List String) (h : l ∈ qualifyingLists m deps) :
    ¬ l.isEmpty = true := by
  unfold qualifyingLists at h
  rcases List.mem_filterMap.mp h with ⟨p, hp, hfp⟩
  by_cases hper : hasPeriod p = true
  · rw [if_pos hper] at hfp
    exact absurd hfp (by simp)
  · rw [if_neg hper] at hfp
    dsimp only at hfp
    by_cases hemp : ((alookup m p).getD []).isEmpty = true
    · rw [if_pos hemp] at hfp
      exact absurd hfp (by simp)
    · rw [if_neg hemp] at hfp
      obtain rfl := Option.some.inj hfp
      exact hemp

theorem qualifyingRetries_pos (m : List (String × Int)) (deps : List String)
    (r : Int) (h : r ∈ qualifyingRetries m deps) : 0 < r := by
  unfold qualifyingRetries at h
  rcases List.mem_filterMap.mp h with ⟨p, hp, hfp⟩
  by_cases hper : hasPeriod p = true
  · rw [if_pos hper] at hfp
    exact absurd hfp (by simp)
  · rw [if_neg hper] at hfp
    dsimp only at hfp
    by_cases hpos : (alookup m p).getD 0 > 0
    · rw [if_pos hpos] at hfp
      obtain rfl := Option.some.inj hfp
      exact hpos
    · rw [if_neg hpos] at hfp
      exact absurd hfp (by simp)

theorem resolveCmds_idem (n : String) (own deps : List String)
    (m : List (String × List String)) (c : List String)
    (h : resolveCmds n own deps m = .ok c) :
    resolveCmds n c deps m = .ok c := by
  unfold resolveCmds at h ⊢
  by_cases ho : ¬ own.isEmpty = true
  · rw [if_pos ho] at h
    obtain rfl := Except.ok.inj h
    rw [if_pos ho]
  · rw [if_neg ho] at h
    rcases hq : qualifyingLists m deps with - | ⟨x, xs⟩ <;> rw [hq] at h
    · obtain rfl := Except.ok.inj h
      rw [if_neg (by simp)]
    · rcases xs with - | ⟨y, ys⟩
      · obtain rfl := Except.ok.inj h
        have hxne : ¬ x.isEmpty = true :=
          qualifyingLists_ne_nil m deps x (hq ▸ List.mem_singleton_self x)
        rw [if_pos hxne]
      · exact absurd h (by simp)

theorem resolveValids_idem (n : String) (own deps : List String)
    (m : List (String × List String)) (v : List String)
    (h : resolveValids n own deps m = .ok v) :
    resolveValids n v deps m = .ok v := by
  unfold resolveValids at h ⊢
  by_cases ho : ¬ own.isEmpty = true
  · rw [if_pos ho] at h
    obtain rfl := Except.ok.inj h
    rw [if_pos ho]
  · rw [if_neg ho] at h
    rcases hq : qualifyingLists m deps with - | ⟨x, xs⟩ <;> rw [hq] at h
    · obtain rfl := Except.ok.inj h
      rw [if_neg (by simp)]
    · rcases xs with - | ⟨y, ys⟩
      · obtain rfl := Except.ok.inj h
        have hxne : ¬ x.isEmpty = true :=
          qualifyingLists_ne_nil m deps x (hq ▸ List.mem_singleton_self x)
        rw [if_pos hxne]
      · exact absurd h (by simp)

theorem resolveRetry_idem (own : Int) (deps : List String)
    (m : List (String × Int)) :
    resolveRetry (resolveRetry own deps m) deps m =
      resolveRetry own deps m := by
  by_cases h : own > 0
  · simp [resolveRetry, h]
  · have hr : resolveRetry own deps m =
        match qualifyingRetries m deps with
        | [] => 0
        | r :: rs => listMax (r :: rs) := by
      unfold resolveRetry
      rw [if_neg h]
    rcases hq : qualifyingRetries m deps with - | ⟨r, rs⟩
    · have h0 : resolveRetry own deps m = 0 := by rw [hr, hq]
      rw [h0]
      unfold resolveRetry
      rw [if_neg (by simp), hq]
    · have hpos : 0 < listMax (r :: rs) :=
        qualifyingRetries_pos m deps _ (hq ▸ listMax_mem r rs)
      have hval : resolveRetry own deps m = listMax (r :: rs) := by
        rw [hr, hq]
      rw [hval]
      unfold resolveRetry
      rw [if_pos hpos]

theorem resolveNode_ok_shape (ps : Prompts) (rs : RState) (n : String)
    (rs1 : RState) (h : resolveNode ps rs n = some (.ok rs1)) :
    ∃ entry c v, alookup ps.entries n = some entry ∧
      resolveCmds n entry.llm_commands entry.dependencies rs.cmds = .ok c ∧
      resolveValids n entry.validator_commands entry.dependencies
        rs.valids = .ok v ∧
      rs1 = ⟨aset rs.cmds n c, aset rs.valids n v, aset rs.retry n
        (resolveRetry entry.auto_retry entry.dependencies rs.retry)⟩ := by
  unfold resolveNode at h
  rcases he : alookup ps.entries n with - | entry <;> rw [he] at h <;>
    dsimp only at h
  · exact absurd h (by simp)
  · rcases hc : resolveCmds n entry.llm_commands entry.dependencies rs.cmds
        with m1 | c <;> rw [hc] at h <;> dsimp only at h
    · exact absurd h (by simp)
    · rcases hv : resolveValids n entry.validator_commands
          entry.dependencies rs.valids with m1 | v <;> rw [hv] at h <;>
        dsimp only at h
      · exact absurd h (by simp)
      · refine ⟨entry, c, v, rfl, hc, hv, ?_⟩
        obtain hrs := Option.some.inj h
        exact (Except.ok.inj hrs).symm

theorem resolveAll_preserve (ps : Prompts) :
    ∀ (rest : List String) (rs rsF : RState),
      resolveAll ps rest rs = some (.ok rsF) →
      ∀ k, k ∉ rest →
        alookup rsF.cmds k = alookup rs.cmds k ∧
        alookup rsF.valids k = alookup rs.valids k ∧
        alookup rsF.retry k = alookup rs.retry k := by
  intro rest
  induction rest with
  | nil =>
    intro rs rsF h k hk
    rw [resolveAll] at h
    obtain rfl := Except.ok.inj (Option.some.inj h)
    exact ⟨rfl, rfl, rfl⟩
  | cons n rest ih =>
    intro rs rsF h k hk
    rw [resolveAll] at h
    rcases hrn : resolveNode ps rs n with - | r <;> rw [hrn] at h <;>
      (try dsimp only at h)
    · exact absurd h (by simp)
    · rcases r with msg | rs1
      · exact absurd h (by simp)
      · have hk1 : k ≠ n := fun hc => hk (by simp [hc])
        have hk2 : k ∉ rest := fun hc => hk (by simp [hc])
        obtain ⟨entry, c, v, -, -, -, hshape⟩ :=
          resolveNode_ok_shape ps rs n rs1 hrn
        obtain ⟨h1, h2, h3⟩ := ih rs1 rsF h k hk2
        subst hshape
        rw [alookup_aset_ne _ _ _ _ hk1] at h1
        rw [alookup_aset_ne _ _ _ _ hk1] at h2
        rw [alookup_aset_ne _ _ _ _ hk1] at h3
        exact ⟨h1, h2, h3⟩

/-- The per-entry assignment of step 4, as a function: the three resolved
fields are written into the entry (callers establish that the three lookups
succeed, so the `getD` defaults are never taken). -/
def wbEntry (rs : RState) (a : String × Entry) : String × Entry :=
  (a.1, { a.2 with
    llm_commands := (alookup rs.cmds a.1).getD [],
    validator_commands := (alookup rs.valids a.1).getD [],
    auto_retry := (alookup rs.retry a.1).getD 0 })

theorem writeBack_eq (rs : RState) :
    ∀ (l l2 : List (String × Entry)), writeBack rs l = some l2 →
      l2 = l.map (wbEntry rs) ∧
      ∀ a ∈ l, (alookup rs.cmds a.1).isSome = true ∧
        (alookup rs.valids a.1).isSome = true ∧
        (alookup rs.retry a.1).isSome = true := by
  intro l
  induction l with
  | nil =>
    intro l2 h
    rw [writeBack] at h
    obtain rfl := Option.some.inj h
    exact ⟨rfl, by simp⟩
  | cons a rest ih =>
    intro l2 h
    obtain ⟨k, e⟩ := a
    rw [writeBack] at h
    rcases hc : alookup rs.cmds k with - | c <;> rw [hc] at h <;>
      (try dsimp only at h)
    · exact absurd h (by simp)
    · rcases hv : alookup rs.valids k with - | v <;> rw [hv] at h <;>
        (try dsimp only at h)
      · exact absurd h (by simp)
      · rcases hr : alookup rs.retry k with - | r <;> rw [hr] at h <;>
          (try dsimp only at h)
        · exact absurd h (by simp)
        · rcases hwb : writeBack rs rest with - | tl <;> rw [hwb] at h <;>
            (try dsimp only at h)
          · exact absurd h (by simp [Option.map])
          · obtain ⟨hmap, hsome⟩ := ih tl hwb
            simp only [Option.map, Option.some.injEq] at h
            refine ⟨?_, ?_⟩
            · rw [← h, hmap]
              simp [wbEntry, hc, hv, hr]
            · intro b hb
              rcases List.mem_cons.mp hb with rfl | hb2
              · exact ⟨by simp [hc], by simp [hv], by simp [hr]⟩
              · exact hsome b hb2

theorem writeBack_of_isSome (rs : RState) :
    ∀ (l : List (String × Entry)),
      (∀ a ∈ l, (alookup rs.cmds a.1).isSome = true ∧
        (alookup rs.valids a.1).isSome = true ∧
        (alookup rs.retry a.1).isSome = true) →
      writeBack rs l = some (l.map (wbEntry rs)) := by
  intro l
  induction l with
  | nil => intro h; rw [writeBack]; rfl
  | cons a rest ih =>
    intro h
    obtain ⟨k, e⟩ := a
    obtain ⟨hc, hv, hr⟩ := h (k, e) (by simp)
    rcases hcs : alookup rs.cmds k with - | c
    · rw [hcs] at hc; exact absurd hc (by simp)
    · rcases hvs : alookup rs.valids k with - | v
      · rw [hvs] at hv; exact absurd hv (by simp)
      · rcases hrs2 : alookup rs.retry k with - | r
        · rw [hrs2] at hr; exact absurd hr (by simp)
        · rw [writeBack, hcs, hvs, hrs2]
          rw [ih (fun b hb => h b (by simp [hb]))]
          simp [Option.map, wbEntry, hcs, hvs, hrs2]

theorem keysOf_map_wb (ps : Prompts) (rs : RState) :
    keysOf ⟨ps.entries.map (wbEntry rs)⟩ = keysOf ps := by
  unfold keysOf
  rw [List.map_map]
  congr 1

theorem totalDeps_map_wb (ps : Prompts) (rs : RState) :
    totalDeps ⟨ps.entries.map (wbEntry rs)⟩ = totalDeps ps := by
  unfold totalDeps
  rw [List.map_map]
  congr 1

theorem topoFuel_map_wb (ps : Prompts) (rs : RState) :
    topoFuel ⟨ps.entries.map (wbEntry rs)⟩ = topoFuel ps := by
  unfold topoFuel
  rw [totalDeps_map_wb]
  simp

theorem foldlM_build_map_wb (ks : List String) (rs : RState) :
    ∀ (l : List (String × Entry))
      (st : (String → List String) × (String → Int)),
      (l.map (wbEntry rs)).foldlM
        (fun st2 ce =>
          ce.2.dependencies.foldlM (fun s p => buildStep ks s ce.1 p) st2) st =
      l.foldlM
        (fun st2 ce =>
          ce.2.dependencies.foldlM (fun s p => buildStep ks s ce.1 p) st2)
        st := by
  intro l
  induction l with
  | nil => intro st; rfl
  | cons a l ih =>
    intro st
    simp only [List.map_cons, List.foldlM_cons]
    have hinner : ((wbEntry rs a).2.dependencies.foldlM
        (fun s p => buildStep ks s (wbEntry rs a).1 p) st) =
        (a.2.dependencies.foldlM (fun s p => buildStep ks s a.1 p) st) := rfl
    rw [hinner]
    rcases hres : a.2.dependencies.foldlM
        (fun s p => buildStep ks s a.1 p) st with - | st2
    · rfl
    · exact ih st2

theorem buildGraph_map_wb (ps : Prompts) (rs : RState) :
    buildGraph ⟨ps.entries.map (wbEntry rs)⟩ = buildGraph ps := by
  unfold buildGraph
  have hk : keysOf ⟨ps.entries.map (wbEntry rs)⟩ = keysOf ps :=
    keysOf_map_wb ps rs
  simp only [hk]
  exact foldlM_build_map_wb (keysOf ps) rs ps.entries _

theorem alookup_map_wb (rs : RState) :
    ∀ (l : List (String × Entry)) (k : String),
      alookup (l.map (wbEntry rs)) k =
        (alookup l k).map (fun e => (wbEntry rs (k, e)).2) := by
  intro l
  induction l with
  | nil => intro k; simp [alookup]
  | cons a l ih =>
    intro k
    by_cases h : a.1 = k
    · simp only [List.map_cons, alookup, wbEntry, h, if_pos]
      subst h
      simp [Option.map]
    · simp only [List.map_cons, alookup]
      rw [if_neg (by simpa [wbEntry] using h)]
      rw [if_neg h]
      exact ih k

theorem decStep_fold_invariant (L : List String) :
    ∀ (children : List String) (ind : String → Int) (q : List String),
      (q ++ L).Nodup →
      (∀ x, x ∈ q ∨ x ∈ L → ind x ≤ 0) →
      ((children.foldl decStep (ind, q)).2 ++ L).Nodup ∧
      (∀ x, x ∈ (children.foldl decStep (ind, q)).2 ∨ x ∈ L →
        (children.foldl decStep (ind, q)).1 x ≤ 0) ∧
      (∀ x, (children.foldl decStep (ind, q)).1 x ≤ ind x) := by
  intro children
  induction children with
  | nil =>
    intro ind q h1 h2
    exact ⟨h1, h2, fun x => le_refl _⟩
  | cons c cs ih =>
    intro ind q h1 h2
    simp only [List.foldl_cons]
    have hd : decStep (ind, q) c =
        if (fun k => if k = c then ind k - 1 else ind k) c = 0 then
          ((fun k => if k = c then ind k - 1 else ind k), q ++ [c])
        else ((fun k => if k = c then ind k - 1 else ind k), q) := rfl
    by_cases hz : (fun k => if k = c then ind k - 1 else ind k) c = 0
    · rw [hd, if_pos hz]
      have hz2 : (if c = c then ind c - 1 else ind c) = 0 := hz
      rw [if_pos rfl] at hz2
      have hc1 : ind c = 1 := by omega
    -- c cannot already be in q or L: its in-degree there would be ≤ 0
      have hcq : c ∉ q := fun hmem => by
        have := h2 c (Or.inl hmem)
        omega
      have hcL : c ∉ L := fun hmem => by
        have := h2 c (Or.inr hmem)
        omega
      have h1a : ((q ++ [c]) ++ L).Nodup := by
        rw [List.append_assoc]
        have hmid : (q ++ c :: L).Nodup ↔ (c :: (q ++ L)).Nodup :=
          List.nodup_middle
        rw [show [c] ++ L = c :: L from rfl, hmid, List.nodup_cons]
        exact ⟨by simp [hcq, hcL], h1⟩
      have h2a : ∀ x, x ∈ q ++ [c] ∨ x ∈ L →
          (fun k => if k = c then ind k - 1 else ind k) x ≤ 0 := by
        intro x hx
        dsimp only
        by_cases hxc : x = c
        · rw [if_pos hxc, hxc]
          omega
        · rw [if_neg hxc]
          rcases hx with hx | hx
          · rcases List.mem_append.mp hx with hx | hx
            · exact h2 x (Or.inl hx)
            · simp only [List.mem_singleton] at hx
              exact absurd hx hxc
          · exact h2 x (Or.inr hx)
      obtain ⟨g1, g2, g3⟩ := ih _ _ h1a h2a
      refine ⟨g1, g2, ?_⟩
      intro y
      refine le_trans (g3 y) ?_
      try dsimp only
      by_cases hyc : y = c
      · rw [if_pos hyc, hyc]
        omega
      · rw [if_neg hyc]
    · rw [hd, if_neg hz]
      have h2a : ∀ x, x ∈ q ∨ x ∈ L →
          (fun k => if k = c then ind k - 1 else ind k) x ≤ 0 := by
        intro x hx
        dsimp only
        have hx0 : ind x ≤ 0 := h2 x hx
        by_cases hxc : x = c
        · rw [if_pos hxc, hxc]
          rw [hxc] at hx0
          omega
        · rw [if_neg hxc]
          exact hx0
      obtain ⟨g1, g2, g3⟩ := ih _ _ h1 h2a
      refine ⟨g1, g2, ?_⟩
      intro y
      refine le_trans (g3 y) ?_
      try dsimp only
      by_cases hyc : y = c
      · rw [if_pos hyc, hyc]
        omega
      · rw [if_neg hyc]

theorem topoLoop_nodup (g : String → List String) :
    ∀ (fuel : Nat) (queue : List String) (ind : String → Int)
      (topo : List String),
      (queue ++ topo).Nodup →
      (∀ x, x ∈ queue ∨ x ∈ topo → ind x ≤ 0) →
      (topoLoop g fuel queue ind topo).1.Nodup := by
  intro fuel
  induction fuel with
  | zero =>
    intro queue ind topo h1 h2
    exact (List.nodup_append.mp h1).2.1
  | succ n ih =>
    intro queue ind topo h1 h2
    rw [topoLoop]
    by_cases hq : queue = []
    · rw [dif_pos hq]
      exact (List.nodup_append.mp h1).2.1
    · rw [dif_neg hq]
      dsimp only
      have hsplit : queue.dropLast ++ [queue.getLast hq] = queue :=
        List.dropLast_append_getLast hq
      have hperm : (queue ++ topo).Perm
          (queue.dropLast ++ (topo ++ [queue.getLast hq])) := by
        conv_lhs => rw [← hsplit]
        rw [List.append_assoc]
        exact List.Perm.append_left _ List.perm_append_comm
      have h1a : (queue.dropLast ++ (topo ++ [queue.getLast hq])).Nodup :=
        hperm.nodup h1
      have h2a : ∀ x, x ∈ queue.dropLast ∨ x ∈ topo ++ [queue.getLast hq] →
          ind x ≤ 0 := by
        intro x hx
        rcases hx with hx | hx
        · exact h2 x (Or.inl (List.dropLast_subset _ hx))
        · rcases List.mem_append.mp hx with hx | hx
          · exact h2 x (Or.inr hx)
          · simp only [List.mem_singleton] at hx
            subst hx
            exact h2 _ (Or.inl (List.getLast_mem hq))
      obtain ⟨g1, g2, -⟩ := decStep_fold_invariant
        (topo ++ [queue.getLast hq]) (g (queue.getLast hq)) ind
        queue.dropLast h1a h2a
      exact ih _ _ _ g1 g2

theorem topoOrderOf_nodup (ps : Prompts) (g : String → List String)
    (indeg : String → Int) (hnd : (keysOf ps).Nodup) :
    (topoOrderOf ps g indeg).Nodup := by
  unfold topoOrderOf
  apply topoLoop_nodup
  · simpa using hnd.filter _
  · intro x hx
    rcases hx with hx | hx
    · have hx2 := (List.mem_filter.mp hx).2
      have : indeg x = 0 := by simpa using hx2
      omega
    · simp at hx

theorem resolveAll_again (ps : Prompts) (rsFull : RState) :
    ∀ (rest : List String) (rs : RState),
      rest.Nodup →
      resolveAll ps rest rs = some (.ok rsFull) →
      resolveAll ⟨ps.entries.map (wbEntry rsFull)⟩ rest rs =
        some (.ok rsFull) := by
  intro rest
  induction rest with
  | nil =>
    intro rs hnd h
    rw [resolveAll] at h ⊢
    exact h
  | cons n rest ih =>
    intro rs hnd h
    rw [resolveAll] at h ⊢
    rcases hrn : resolveNode ps rs n with - | r <;> rw [hrn] at h <;>
      (try dsimp only at h)
    · exact absurd h (by simp)
    · rcases r with msg | rs1
      · exact absurd h (by simp)
      · obtain ⟨entry, c, v, he, hc, hv, hshape⟩ :=
          resolveNode_ok_shape ps rs n rs1 hrn
        have hnotin : n ∉ rest := (List.nodup_cons.mp hnd).1
        have hndr : rest.Nodup := (List.nodup_cons.mp hnd).2
        obtain ⟨hf1, hf2, hf3⟩ :=
          resolveAll_preserve ps rest rs1 rsFull h n hnotin
        have hc1 : alookup rs1.cmds n = some c := by
          rw [hshape]
          exact alookup_aset_self _ _ _
        have hv1 : alookup rs1.valids n = some v := by
          rw [hshape]
          exact alookup_aset_self _ _ _
        have hr1 : alookup rs1.retry n = some
            (resolveRetry entry.auto_retry entry.dependencies rs.retry) := by
          rw [hshape]
          exact alookup_aset_self _ _ _
        have he2 : alookup (ps.entries.map (wbEntry rsFull)) n =
            some (wbEntry rsFull (n, entry)).2 := by
          rw [alookup_map_wb, he]
          rfl
        have hllm : (wbEntry rsFull (n, entry)).2.llm_commands = c := by
          show (alookup rsFull.cmds n).getD [] = c
          rw [hf1, hc1]
          rfl
        have hvv : (wbEntry rsFull (n, entry)).2.validator_commands = v := by
          show (alookup rsFull.valids n).getD [] = v
          rw [hf2, hv1]
          rfl
        have hrr : (wbEntry rsFull (n, entry)).2.auto_retry =
            resolveRetry entry.auto_retry entry.dependencies rs.retry := by
          show (alookup rsFull.retry n).getD 0 = _
          rw [hf3, hr1]
          rfl
        have hcmds2 : resolveCmds n (wbEntry rsFull (n, entry)).2.llm_commands
            (wbEntry rsFull (n, entry)).2.dependencies rs.cmds =
            Except.ok c := by
          rw [hllm]
          exact resolveCmds_idem n entry.llm_commands entry.dependencies
            rs.cmds c hc
        have hvv2 : resolveValids n
            (wbEntry rsFull (n, entry)).2.validator_commands
            (wbEntry rsFull (n, entry)).2.dependencies rs.valids =
            Except.ok v := by
          rw [hvv]
          exact resolveValids_idem n entry.validator_commands
            entry.dependencies rs.valids v hv
        have hret2 : resolveRetry (wbEntry rsFull (n, entry)).2.auto_retry
            (wbEntry rsFull (n, entry)).2.dependencies rs.retry =
            resolveRetry entry.auto_retry entry.dependencies rs.retry := by
          rw [hrr]
          exact resolveRetry_idem entry.auto_retry entry.dependencies rs.retry
        have hrn2 : resolveNode ⟨ps.entries.map (wbEntry rsFull)⟩ rs n =
            some (.ok rs1) := by
          unfold resolveNode
          rw [show alookup (Prompts.mk (ps.entries.map (wbEntry rsFull))).entries
            n = some (wbEntry rsFull (n, entry)).2 from he2]
          dsimp only
          rw [hcmds2]
          dsimp only
          rw [hvv2]
          dsimp only
          rw [hret2, hshape]
        rw [hrn2]
        dsimp only
        exact ih rs1 hndr h

/-- C7: on every `PromptSet` (with the dict invariant of pairwise-distinct
keys) for which `inherit_properties` succeeds, running `inherit_properties`
again succeeds and changes nothing: the already-resolved entries are a fixed
point, so `llm_commands`, `validator_commands` and `auto_retry` are left
unchanged. -/
theorem claim_C7 (ps : Prompts) (errs : List String) (ps2 : Prompts)
    (hnd : (keysOf ps).Nodup)
    (h : inherit_properties ps = some (true, errs, ps2)) :
    inherit_properties ps2 = some (true, [], ps2) := by
  unfold inherit_properties at h
  rcases hbg : buildGraph ps with - | ⟨g, indeg⟩ <;> rw [hbg] at h <;>
    (try dsimp only at h)
  · exact absurd h (by simp)
  · rcases hra : resolveAll ps (topoOrderOf ps g indeg) ⟨[], [], []⟩
        with - | r <;> rw [hra] at h <;> (try dsimp only at h)
    · exact absurd h (by simp)
    · rcases r with msg | rs
      · exact absurd h (by simp)
      · dsimp only at h
        rcases hwb : writeBack rs ps.entries with - | l2 <;> rw [hwb] at h <;>
          (try dsimp only at h)
        · exact absurd h (by simp)
        · simp only [Option.some.injEq, Prod.mk.injEq] at h
          obtain ⟨-, -, hps2⟩ := h
          obtain ⟨hmap, hsome⟩ := writeBack_eq rs ps.entries l2 hwb
          have hps2F : ps2 = ⟨ps.entries.map (wbEntry rs)⟩ := by
            rw [← hps2, hmap]
          have hbg2 : buildGraph ⟨ps.entries.map (wbEntry rs)⟩ =
              some (g, indeg) := by
            rw [buildGraph_map_wb]
            exact hbg
          have htopo : topoOrderOf ⟨ps.entries.map (wbEntry rs)⟩ g indeg =
              topoOrderOf ps g indeg := by
            unfold topoOrderOf
            rw [topoFuel_map_wb, keysOf_map_wb]
          have hndtopo : (topoOrderOf ps g indeg).Nodup :=
            topoOrderOf_nodup ps g indeg hnd
          have hra2 : resolveAll ⟨ps.entries.map (wbEntry rs)⟩
              (topoOrderOf ps g indeg) ⟨[], [], []⟩ = some (.ok rs) :=
            resolveAll_again ps rs _ _ hndtopo hra
          have hwbid : (ps.entries.map (wbEntry rs)).map (wbEntry rs) =
              ps.entries.map (wbEntry rs) := by
            rw [List.map_map]
            have hcomp : wbEntry rs ∘ wbEntry rs = wbEntry rs :=
              funext fun a => rfl
            rw [hcomp]
          have hwb2 : writeBack rs (ps.entries.map (wbEntry rs)) =
              some (ps.entries.map (wbEntry rs)) := by
            have hsome2 : ∀ a ∈ ps.entries.map (wbEntry rs),
                (alookup rs.cmds a.1).isSome = true ∧
                (alookup rs.valids a.1).isSome = true ∧
                (alookup rs.retry a.1).isSome = true := by
              intro a ha
              rcases List.mem_map.mp ha with ⟨b, hb, rfl⟩
              exact hsome b hb
            rw [writeBack_of_isSome rs _ hsome2, hwbid]
          rw [hps2F]
          unfold inherit_properties
          rw [show buildGraph ⟨ps.entries.map (wbEntry rs)⟩ = some (g, indeg)
            from hbg2]
          dsimp only
          rw [htopo, hra2]
          dsimp only
          rw [show writeBack rs
            (Prompts.mk (ps.entries.map (wbEntry rs))).entries =
            some (ps.entries.map (wbEntry rs)) from hwb2]

theorem claim_C7_witness :
    inherit_properties (Prompts.mk
      [("a", ⟨"a", [], "t", (1, 0), ["x"], [], 0⟩)]) = some (true, [],
      Prompts.mk [("a", ⟨"a", [], "t", (1, 0), ["x"], [], 0⟩)]) :=
  claim_C7 (Prompts.mk [("a", ⟨"a", [], "t", (1, 0), ["x"], [], 0⟩)]) []
    (Prompts.mk [("a", ⟨"a", [], "t", (1, 0), ["x"], [], 0⟩)])
    (by decide) (by decide)

/-!
## Infrastructure for the cyclic-graph theorem

`cntAll g l nd` is the number of edge instances into `nd` from sources in
`l` — the in-degree bookkeeping of Kahn: `indeg nd` always equals the total
count over all entry names minus the count over the already-popped names.
-/

def cntAll (g : String → List String) (l : List String) (nd : String) : Nat :=
  (l.map (fun p => (g p).count nd)).sum

theorem map_congr_mem {α β : Type} (f f2 : α → β) :
    ∀ (l : List α), (∀ y ∈ l, f2 y = f y) → l.map f2 = l.map f := by
  intro l
  induction l with
  | nil => intro h; rfl
  | cons x xs ih =>
    intro h
    simp only [List.map_cons]
    rw [h x (by simp), ih (fun y hy => h y (by simp [hy]))]

theorem sum_map_update (f f2 : String → Nat) (p : String) :
    ∀ (names : List String), names.Nodup → p ∈ names →
      (∀ x, x ≠ p → f2 x = f x) →
      (names.map f2).sum + f p = (names.map f).sum + f2 p := by
  intro names
  induction names with
  | nil => intro h1 h2; simp at h2
  | cons x xs ih =>
    intro h1 h2 hoff
    rcases List.mem_cons.mp h2 with rfl | hx
    · have hnot : p ∉ xs := (List.nodup_cons.mp h1).1
      have hcongr : xs.map f2 = xs.map f :=
        map_congr_mem f f2 xs (fun y hy => hoff y (fun hc => hnot (hc ▸ hy)))
      simp only [List.map_cons, List.sum_cons, hcongr]
      omega
    · have hxp : x ≠ p := fun hc => by
        subst hc
        exact (List.nodup_cons.mp h1).1 hx
      have := ih (List.nodup_cons.mp h1).2 hx hoff
      simp only [List.map_cons, List.sum_cons, hoff x hxp]
      omega

theorem sum_map_le_of_nodup_subset (f : String → Nat) :
    ∀ (l : List String), l.Nodup →
      ∀ (names : List String), (∀ x ∈ l, x ∈ names) →
        (l.map f).sum ≤ (names.map f).sum := by
  intro l
  induction l with
  | nil => intro h1 names h2; simp
  | cons x xs ih =>
    intro h1 names h2
    obtain ⟨s, t, rfl⟩ := List.append_of_mem (h2 x (by simp))
    have hxs : x ∉ xs := (List.nodup_cons.mp h1).1
    have hsub : ∀ y ∈ xs, y ∈ s ++ t := by
      intro y hy
      have hy2 := h2 y (by simp [hy])
      have hyx : y ≠ x := fun hc => hxs (hc ▸ hy)
      rcases List.mem_append.mp hy2 with hys | hyt
      · exact List.mem_append.mpr (Or.inl hys)
      · rcases List.mem_cons.mp hyt with hc | hyt2
        · exact absurd hc hyx
        · exact List.mem_append.mpr (Or.inr hyt2)
    have hle := ih (List.nodup_cons.mp h1).2 (s ++ t) hsub
    simp only [List.map_cons, List.sum_cons, List.map_append,
      List.sum_append] at hle ⊢
    omega

theorem cntAll_append (g : String → List String) (l1 l2 : List String)
    (nd : String) :
    cntAll g (l1 ++ l2) nd = cntAll g l1 nd + cntAll g l2 nd := by
  unfold cntAll
  rw [List.map_append, List.sum_append]

theorem decStep_fold_count :
    ∀ (children : List String) (ind : String → Int) (q : List String)
      (x : String),
      (children.foldl decStep (ind, q)).1 x =
        ind x - (children.count x : Int) := by
  intro children
  induction children with
  | nil =>
    intro ind q x
    simp
  | cons c cs ih =>
    intro ind q x
    simp only [List.foldl_cons]
    have hd : decStep (ind, q) c =
        if (fun k => if k = c then ind k - 1 else ind k) c = 0 then
          ((fun k => if k = c then ind k - 1 else ind k), q ++ [c])
        else ((fun k => if k = c then ind k - 1 else ind k), q) := rfl
    have hcount : ((c :: cs).count x : Int) =
        (cs.count x : Int) + (if x = c then 1 else 0) := by
      rw [List.count_cons]
      by_cases hx : x = c
      · simp [hx]
      · have hb : ¬ (c == x) = true := by
          simp only [beq_iff_eq]
          exact fun hc => hx hc.symm
        simp [hb, hx]
    by_cases hz : (fun k => if k = c then ind k - 1 else ind k) c = 0
    · rw [hd, if_pos hz, ih, hcount]
      by_cases hx : x = c
      · rw [if_pos hx, if_pos hx]
        omega
      · rw [if_neg hx, if_neg hx]
        omega
    · rw [hd, if_neg hz, ih, hcount]
      by_cases hx : x = c
      · rw [if_pos hx, if_pos hx]
        omega
      · rw [if_neg hx, if_neg hx]
        omega

theorem decStep_fold_sub :
    ∀ (children : List String) (ind : String → Int) (q : List String)
      (x : String), x ∈ (children.foldl decStep (ind, q)).2 →
      x ∈ q ∨ x ∈ children := by
  intro children
  induction children with
  | nil =>
    intro ind q x hx
    exact Or.inl hx
  | cons c cs ih =>
    intro ind q x hx
    simp only [List.foldl_cons] at hx
    have hd : decStep (ind, q) c =
        if (fun k => if k = c then ind k - 1 else ind k) c = 0 then
          ((fun k => if k = c then ind k - 1 else ind k), q ++ [c])
        else ((fun k => if k = c then ind k - 1 else ind k), q) := rfl
    by_cases hz : (fun k => if k = c then ind k - 1 else ind k) c = 0
    · rw [hd, if_pos hz] at hx
      rcases ih _ _ _ hx with hq | hcs
      · rcases List.mem_append.mp hq with hq | hq
        · exact Or.inl hq
        · simp only [List.mem_singleton] at hq
          exact Or.inr (by simp [hq])
      · exact Or.inr (by simp [hcs])
    · rw [hd, if_neg hz] at hx
      rcases ih _ _ _ hx with hq | hcs
      · exact Or.inl hq
      · exact Or.inr (by simp [hcs])

theorem decStep_fold_avoid (c : String) :
    ∀ (children : List String) (ind : String → Int) (q : List String),
      c ∉ q → 1 ≤ ind c - (children.count c : Int) →
      c ∉ (children.foldl decStep (ind, q)).2 := by
  intro children
  induction children with
  | nil =>
    intro ind q hq hge
    exact hq
  | cons x xs ih =>
    intro ind q hq hge
    simp only [List.foldl_cons]
    have hd : decStep (ind, q) x =
        if (fun k => if k = x then ind k - 1 else ind k) x = 0 then
          ((fun k => if k = x then ind k - 1 else ind k), q ++ [x])
        else ((fun k => if k = x then ind k - 1 else ind k), q) := rfl
    have hbeta : (fun k => if k = x then ind k - 1 else ind k) c =
        if c = x then ind c - 1 else ind c := rfl
    have hcount : ((x :: xs).count c : Int) =
        (xs.count c : Int) + (if c = x then 1 else 0) := by
      rw [List.count_cons]
      by_cases hc : c = x
      · simp [hc]
      · have hb : ¬ (x == c) = true := by
          simp only [beq_iff_eq]
          exact fun h2 => hc h2.symm
        simp [hb, hc]
    rw [hcount] at hge
    by_cases hcx : c = x
    · -- the decremented node is c itself: its new value stays ≥ 1 > 0
      subst hcx
      rw [if_pos rfl] at hge
      have hnz : ¬ (fun k => if k = c then ind k - 1 else ind k) c = 0 := by
        have hv : (fun k => if k = c then ind k - 1 else ind k) c =
            ind c - 1 := by
          show (if c = c then ind c - 1 else ind c) = ind c - 1
          rw [if_pos rfl]
        rw [hv]
        omega
      rw [hd, if_neg hnz]
      apply ih
      · exact hq
      · show 1 ≤ (if c = c then ind c - 1 else ind c) - (xs.count c : Int)
        rw [if_pos rfl]
        omega
    · rw [if_neg hcx] at hge
      by_cases hz : (fun k => if k = x then ind k - 1 else ind k) x = 0
      · rw [hd, if_pos hz]
        apply ih
        · intro hmem
          rcases List.mem_append.mp hmem with hm | hm
          · exact hq hm
          · simp only [List.mem_singleton] at hm
            exact hcx hm
        · show 1 ≤ (if c = x then ind c - 1 else ind c) - (xs.count c : Int)
          rw [if_neg hcx]
          omega
      · rw [hd, if_neg hz]
        apply ih
        · exact hq
        · show 1 ≤ (if c = x then ind c - 1 else ind c) - (xs.count c : Int)
          rw [if_neg hcx]
          omega

theorem topoLoop_cycle (g : String → List String) (names C : List String)
    (HS2 : ∀ p x, x ∈ g p → x ∈ names)
    (HS3 : ∀ c ∈ C, ∃ q, q ∈ C ∧ 1 ≤ (g q).count c)
    (HSC : ∀ c ∈ C, c ∈ names) :
    ∀ (fuel : Nat) (queue : List String) (ind : String → Int)
      (topo : List String),
      (queue ++ topo).Nodup →
      (∀ x, x ∈ queue ∨ x ∈ topo → ind x ≤ 0) →
      (∀ x, x ∈ queue ∨ x ∈ topo → x ∈ names) →
      (∀ c ∈ C, c ∉ queue ∧ c ∉ topo) →
      (∀ c ∈ C, ind c = (cntAll g names c : Int) - (cntAll g topo c : Int)) →
      ∀ c ∈ C, c ∉ (topoLoop g fuel queue ind topo).1 := by
  intro fuel
  induction fuel with
  | zero =>
    intro queue ind topo h1 h2 h3 h4 h5 c hc
    exact (h4 c hc).2
  | succ n ih =>
    intro queue ind topo h1 h2 h3 h4 h5 c hc
    rw [topoLoop]
    by_cases hq : queue = []
    · rw [dif_pos hq]
      exact (h4 c hc).2
    · rw [dif_neg hq]
      dsimp only
      have hnodemem : queue.getLast hq ∈ queue := List.getLast_mem hq
      have hnodeC : queue.getLast hq ∉ C := fun hmem =>
        (h4 _ hmem).1 hnodemem
      have hnodenames : queue.getLast hq ∈ names :=
        h3 _ (Or.inl hnodemem)
      have hsplit : queue.dropLast ++ [queue.getLast hq] = queue :=
        List.dropLast_append_getLast hq
      -- the in-degree of every cycle node stays at least 1 after this pop
      have hbound : ∀ c2 ∈ C,
          1 ≤ ind c2 - ((g (queue.getLast hq)).count c2 : Int) := by
        intro c2 hc2
        obtain ⟨q2, hq2C, hq2cnt⟩ := HS3 c2 hc2
        have hq2topo : q2 ∉ topo := (h4 q2 hq2C).2
        have hq2queue : q2 ∉ queue := (h4 q2 hq2C).1
        have hq2node : q2 ≠ queue.getLast hq := fun hcq =>
          hq2queue (hcq ▸ hnodemem)
        have hq2names : q2 ∈ names := HSC q2 hq2C
        have hlnodup : ((topo ++ [queue.getLast hq]) ++ [q2]).Nodup := by
          have htopond : topo.Nodup := (List.nodup_append.mp h1).2.1
          have hnodetopo : queue.getLast hq ∉ topo :=
            fun hm => (List.nodup_append.mp h1).2.2 hnodemem hm
          rw [List.nodup_append]
          refine ⟨?_, List.nodup_singleton _, ?_⟩
          · rw [List.nodup_append]
            refine ⟨htopond, List.nodup_singleton _, ?_⟩
            intro a ha hb
            simp only [List.mem_singleton] at hb
            exact hnodetopo (hb ▸ ha)
          · intro a ha hb
            simp only [List.mem_singleton] at hb
            subst hb
            rcases List.mem_append.mp ha with hm | hm
            · exact hq2topo hm
            · simp only [List.mem_singleton] at hm
              exact hq2node hm
        have hlsub : ∀ x ∈ (topo ++ [queue.getLast hq]) ++ [q2], x ∈ names := by
          intro x hx
          rcases List.mem_append.mp hx with hx | hx
          · rcases List.mem_append.mp hx with hx | hx
            · exact h3 x (Or.inr hx)
            · simp only [List.mem_singleton] at hx
              exact hx ▸ hnodenames
          · simp only [List.mem_singleton] at hx
            exact hx ▸ hq2names
        have hsum := sum_map_le_of_nodup_subset
          (fun p => (g p).count c2) _ hlnodup names hlsub
        have hexp : (((topo ++ [queue.getLast hq]) ++ [q2]).map
            (fun p => (g p).count c2)).sum =
            cntAll g topo c2 + (g (queue.getLast hq)).count c2 +
              (g q2).count c2 := by
          simp only [List.map_append, List.sum_append]
          unfold cntAll
          simp
        rw [hexp] at hsum
        have hval := h5 c2 hc2
        have hcn : cntAll g names c2 = ((names.map
            (fun p => (g p).count c2)).sum) := rfl
        rw [hcn] at hval
        omega
      -- invariants for the recursive call
      have h1a : (queue.dropLast ++ (topo ++ [queue.getLast hq])).Nodup := by
        have hperm : (queue ++ topo).Perm
            (queue.dropLast ++ (topo ++ [queue.getLast hq])) := by
          conv_lhs => rw [← hsplit]
          rw [List.append_assoc]
          exact List.Perm.append_left _ List.perm_append_comm
        exact hperm.nodup h1
      have h2a : ∀ x, x ∈ queue.dropLast ∨ x ∈ topo ++ [queue.getLast hq] →
          ind x ≤ 0 := by
        intro x hx
        rcases hx with hx | hx
        · exact h2 x (Or.inl (List.dropLast_subset _ hx))
        · rcases List.mem_append.mp hx with hx | hx
          · exact h2 x (Or.inr hx)
          · simp only [List.mem_singleton] at hx
            subst hx
            exact h2 _ (Or.inl hnodemem)
      obtain ⟨g1, g2, -⟩ := decStep_fold_invariant
        (topo ++ [queue.getLast hq]) (g (queue.getLast hq)) ind
        queue.dropLast h1a h2a
      refine ih _ _ _ g1 g2 ?_ ?_ ?_ c hc
      · -- membership in names
        intro x hx
        rcases hx with hx | hx
        · rcases decStep_fold_sub _ _ _ _ hx with hx2 | hx2
          · exact h3 x (Or.inl (List.dropLast_subset _ hx2))
          · exact HS2 _ x hx2
        · rcases List.mem_append.mp hx with hx2 | hx2
          · exact h3 x (Or.inr hx2)
          · simp only [List.mem_singleton] at hx2
            exact hx2 ▸ hnodenames
      · -- no cycle node enters the queue or the order
        intro c2 hc2
        constructor
        · apply decStep_fold_avoid
          · intro hm
            exact (h4 c2 hc2).1 (List.dropLast_subset _ hm)
          · exact hbound c2 hc2
        · intro hm
          rcases List.mem_append.mp hm with hm2 | hm2
          · exact (h4 c2 hc2).2 hm2
          · simp only [List.mem_singleton] at hm2
            exact hnodeC (hm2 ▸ hc2)
      · -- the exact in-degree bookkeeping
        intro c2 hc2
        rw [decStep_fold_count, cntAll_append, h5 c2 hc2]
        have hone : cntAll g [queue.getLast hq] c2 =
            (g (queue.getLast hq)).count c2 := by
          unfold cntAll
          simp
        rw [hone]
        push_cast
        omega

theorem count_push (l : List String) (c nd : String) :
    (l ++ [c]).count nd = l.count nd + (if nd = c then 1 else 0) := by
  rw [List.count_append]
  by_cases h : nd = c
  · subst h
    simp
  · have hb : ¬ (nd == c) = true := by
      simp only [beq_iff_eq]
      exact h
    simp [List.count_cons, List.count_nil, hb, h]

theorem cntAll_push (g : String → List String) (names : List String)
    (p child nd : String) (hnd : names.Nodup) (hp : p ∈ names) :
    cntAll (fun k => if k = p then g k ++ [child] else g k) names nd =
      cntAll g names nd + (if nd = child then 1 else 0) := by
  have hoff : ∀ x, x ≠ p →
      (fun k => ((if k = p then g k ++ [child] else g k)).count nd) x =
      (fun k => (g k).count nd) x := by
    intro x hx
    show ((if x = p then g x ++ [child] else g x)).count nd = (g x).count nd
    rw [if_neg hx]
  have hupd := sum_map_update (fun k => (g k).count nd)
    (fun k => ((if k = p then g k ++ [child] else g k)).count nd)
    p names hnd hp hoff
  have hfp : (fun k => ((if k = p then g k ++ [child] else g k)).count nd) p =
      (g p).count nd + (if nd = child then 1 else 0) := by
    show ((if p = p then g p ++ [child] else g p)).count nd = _
    rw [if_pos rfl, count_push]
  rw [hfp] at hupd
  show ((names.map
    (fun k => ((if k = p then g k ++ [child] else g k)).count nd))).sum = _
  have hc2 : cntAll g names nd = (names.map (fun k => (g k).count nd)).sum :=
    rfl
  rw [hc2]
  dsimp only at hupd ⊢
  omega

theorem buildInner_facts (names : List String) (child : String)
    (hnd : names.Nodup) (hchild : child ∈ names) :
    ∀ (deps : List String)
      (st st2 : (String → List String) × (String → Int)),
      deps.foldlM (fun s p => buildStep names s child p) st = some st2 →
      (∀ nd, st.2 nd = (cntAll st.1 names nd : Int)) →
      (∀ p x, x ∈ st.1 p → x ∈ names) →
      ((∀ nd, st2.2 nd = (cntAll st2.1 names nd : Int)) ∧
       (∀ p x, x ∈ st2.1 p → x ∈ names) ∧
       (∀ p nd, (st.1 p).count nd ≤ (st2.1 p).count nd) ∧
       (∀ q, q ∈ deps → hasPeriod q = false →
         1 ≤ (st2.1 q).count child)) := by
  intro deps
  induction deps with
  | nil =>
    intro st st2 h hinv hsub
    rw [List.foldlM_nil] at h
    obtain rfl := Option.some.inj h
    exact ⟨hinv, hsub, fun p nd => le_refl _, fun q hq => by simp at hq⟩
  | cons p ps2 ih =>
    intro st st2 h hinv hsub
    rw [List.foldlM_cons] at h
    rcases hbs : buildStep names st child p with - | st1 <;> rw [hbs] at h <;>
      (try dsimp only at h)
    · exact absurd h (by simp)
    · unfold buildStep at hbs
      by_cases hper : hasPeriod p = true
      · rw [if_pos hper] at hbs
        obtain rfl := Option.some.inj hbs
        obtain ⟨c1, c2, c3, c4⟩ := ih st st2 h hinv hsub
        refine ⟨c1, c2, c3, ?_⟩
        intro q hq hqper
        rcases List.mem_cons.mp hq with rfl | hq2
        · exact absurd hper (by simp [hqper])
        · exact c4 q hq2 hqper
      · rw [if_neg hper] at hbs
        by_cases hmem : names.contains p = true
        · rw [if_pos hmem] at hbs
          have hpn : p ∈ names := List.elem_iff.mp hmem
          obtain rfl := Option.some.inj hbs
          -- the updated state
          have hinv1 : ∀ nd,
              (fun k => if k = child then st.2 k + 1 else st.2 k) nd =
              (cntAll (fun k => if k = p then st.1 k ++ [child] else st.1 k)
                names nd : Int) := by
            intro nd
            rw [cntAll_push st.1 names p child nd hnd hpn]
            show (if nd = child then st.2 nd + 1 else st.2 nd) = _
            by_cases hndc : nd = child
            · rw [if_pos hndc, if_pos hndc, hinv nd]
              push_cast
              omega
            · rw [if_neg hndc, if_neg hndc, hinv nd]
              push_cast
              omega
          have hsub1 : ∀ p2 x,
              x ∈ (fun k => if k = p then st.1 k ++ [child] else st.1 k) p2 →
              x ∈ names := by
            intro p2 x hx
            by_cases hp2 : p2 = p
            · rw [show (fun k => if k = p then st.1 k ++ [child] else st.1 k)
                p2 = st.1 p2 ++ [child] from by
                  show (if p2 = p then st.1 p2 ++ [child] else st.1 p2) = _
                  rw [if_pos hp2]] at hx
              rcases List.mem_append.mp hx with hx2 | hx2
              · exact hsub p2 x hx2
              · simp only [List.mem_singleton] at hx2
                exact hx2 ▸ hchild
            · rw [show (fun k => if k = p then st.1 k ++ [child] else st.1 k)
                p2 = st.1 p2 from by
                  show (if p2 = p then st.1 p2 ++ [child] else st.1 p2) = _
                  rw [if_neg hp2]] at hx
              exact hsub p2 x hx
          obtain ⟨c1, c2, c3, c4⟩ := ih _ st2 h hinv1 hsub1
          have hstep : ∀ p2 nd, (st.1 p2).count nd ≤
              ((fun k => if k = p then st.1 k ++ [child] else st.1 k) p2).count
                nd := by
            intro p2 nd
            by_cases hp2 : p2 = p
            · show _ ≤ ((if p2 = p then st.1 p2 ++ [child] else st.1 p2)).count nd
              rw [if_pos hp2, count_push]
              omega
            · show _ ≤ ((if p2 = p then st.1 p2 ++ [child] else st.1 p2)).count nd
              rw [if_neg hp2]
          refine ⟨c1, c2, fun p2 nd => le_trans (hstep p2 nd) (c3 p2 nd), ?_⟩
          intro q hq hqper
          rcases List.mem_cons.mp hq with rfl | hq2
          · refine le_trans ?_ (c3 q child)
            show 1 ≤ ((if q = q then st.1 q ++ [child] else st.1 q)).count child
            rw [if_pos rfl, count_push]
            simp
          · exact c4 q hq2 hqper
        · rw [if_neg hmem] at hbs
          exact absurd hbs (by simp)

theorem buildInner_count_mono (names : List String) (child : String) :
    ∀ (deps : List String)
      (st st2 : (String → List String) × (String → Int)),
      deps.foldlM (fun s p => buildStep names s child p) st = some st2 →
      ∀ q nd, (st.1 q).count nd ≤ (st2.1 q).count nd := by
  intro deps
  induction deps with
  | nil =>
    intro st st2 h q nd
    rw [List.foldlM_nil] at h
    obtain rfl := Option.some.inj h
    exact le_refl _
  | cons p ps2 ih =>
    intro st st2 h q nd
    rw [List.foldlM_cons] at h
    rcases hbs : buildStep names st child p with - | st1 <;> rw [hbs] at h <;>
      (try dsimp only at h)
    · exact absurd h (by simp)
    · unfold buildStep at hbs
      by_cases hper : hasPeriod p = true
      · rw [if_pos hper] at hbs
        obtain rfl := Option.some.inj hbs
        exact ih st st2 h q nd
      · rw [if_neg hper] at hbs
        by_cases hmem : names.contains p = true
        · rw [if_pos hmem] at hbs
          obtain rfl := Option.some.inj hbs
          refine le_trans ?_ (ih _ st2 h q nd)
          show _ ≤ ((if q = p then st.1 q ++ [child] else st.1 q)).count nd
          by_cases hqp : q = p
          · rw [if_pos hqp, count_push]
            omega
          · rw [if_neg hqp]
        · rw [if_neg hmem] at hbs
          exact absurd hbs (by simp)

theorem buildOuter_count_mono (names : List String) :
    ∀ (l : List (String × Entry))
      (st st2 : (String → List String) × (String → Int)),
      l.foldlM (fun s ce => ce.2.dependencies.foldlM
        (fun s2 p => buildStep names s2 ce.1 p) s) st = some st2 →
      ∀ q nd, (st.1 q).count nd ≤ (st2.1 q).count nd := by
  intro l
  induction l with
  | nil =>
    intro st st2 h q nd
    rw [List.foldlM_nil] at h
    obtain rfl := Option.some.inj h
    exact le_refl _
  | cons ce l2 ih =>
    intro st st2 h q nd
    rw [List.foldlM_cons] at h
    rcases hbs : ce.2.dependencies.foldlM
        (fun s2 p => buildStep names s2 ce.1 p) st with - | st1 <;>
      rw [hbs] at h <;> (try dsimp only at h)
    · exact absurd h (by simp)
    · exact le_trans (buildInner_count_mono names ce.1 _ st st1 hbs q nd)
        (ih st1 st2 h q nd)

theorem buildOuter_facts (names : List String) (hnd : names.Nodup) :
    ∀ (l : List (String × Entry))
      (st st2 : (String → List String) × (String → Int)),
      (∀ ce ∈ l, ce.1 ∈ names) →
      l.foldlM (fun s ce => ce.2.dependencies.foldlM
        (fun s2 p => buildStep names s2 ce.1 p) s) st = some st2 →
      (∀ nd, st.2 nd = (cntAll st.1 names nd : Int)) →
      (∀ p x, x ∈ st.1 p → x ∈ names) →
      ((∀ nd, st2.2 nd = (cntAll st2.1 names nd : Int)) ∧
       (∀ p x, x ∈ st2.1 p → x ∈ names) ∧
       (∀ ce ∈ l, ∀ q ∈ ce.2.dependencies, hasPeriod q = false →
         1 ≤ (st2.1 q).count ce.1)) := by
  intro l
  induction l with
  | nil =>
    intro st st2 hkeys h hinv hsub
    rw [List.foldlM_nil] at h
    obtain rfl := Option.some.inj h
    exact ⟨hinv, hsub, fun ce hce => by simp at hce⟩
  | cons ce l2 ih =>
    intro st st2 hkeys h hinv hsub
    rw [List.foldlM_cons] at h
    rcases hbs : ce.2.dependencies.foldlM
        (fun s2 p => buildStep names s2 ce.1 p) st with - | st1 <;>
      rw [hbs] at h <;> (try dsimp only at h)
    · exact absurd h (by simp)
    · obtain ⟨i1, i2, i3, i4⟩ := buildInner_facts names ce.1 hnd
        (hkeys ce (by simp)) ce.2.dependencies st st1 hbs hinv hsub
      obtain ⟨o1, o2, o3⟩ := ih st1 st2
        (fun ce2 hce2 => hkeys ce2 (by simp [hce2])) h i1 i2
      refine ⟨o1, o2, ?_⟩
      intro ce2 hce2 q hq hqper
      rcases List.mem_cons.mp hce2 with hceq | hce3
      · rw [hceq] at hq ⊢
        exact le_trans (i4 q hq hqper)
          (buildOuter_count_mono names l2 st1 st2 h q ce.1)
      · exact o3 ce2 hce3 q hq hqper

theorem buildGraph_facts (ps : Prompts) (g : String → List String)
    (indeg : String → Int) (hnd : (keysOf ps).Nodup)
    (hbg : buildGraph ps = some (g, indeg)) :
    (∀ nd, indeg nd = (cntAll g (keysOf ps) nd : Int)) ∧
    (∀ p x, x ∈ g p → x ∈ keysOf ps) ∧
    (∀ ce ∈ ps.entries, ∀ q ∈ ce.2.dependencies, hasPeriod q = false →
      1 ≤ (g q).count ce.1) := by
  unfold buildGraph at hbg
  have h0inv : ∀ nd, ((fun _ => (0 : Int)) : String → Int) nd =
      (cntAll (fun _ => []) (keysOf ps) nd : Int) := by
    intro nd
    unfold cntAll
    simp
  have h0sub : ∀ (p x : String), x ∈ (fun _ => ([] : List String)) p →
      x ∈ keysOf ps := by
    intro p x hx
    simp at hx
  exact buildOuter_facts (keysOf ps) hnd ps.entries
    ((fun _ => []), (fun _ => 0)) (g, indeg)
    (fun ce hce => List.mem_map_of_mem Prod.fst hce) hbg h0inv h0sub

theorem buildInner_total (names : List String) (child : String) :
    ∀ (deps : List String) (st : (String → List String) × (String → Int)),
      (∀ p ∈ deps, hasPeriod p = false → names.contains p = true) →
      ∃ st2, deps.foldlM (fun s p => buildStep names s child p) st =
        some st2 := by
  intro deps
  induction deps with
  | nil =>
    intro st h
    exact ⟨st, rfl⟩
  | cons p ps2 ih =>
    intro st h
    rw [List.foldlM_cons]
    unfold buildStep
    by_cases hper : hasPeriod p = true
    · rw [if_pos hper]
      obtain ⟨st2, hst2⟩ := ih st (fun p2 hp2 => h p2 (by simp [hp2]))
      exact ⟨st2, hst2⟩
    · rw [if_neg hper]
      have hmem : names.contains p = true :=
        h p (by simp) (by simpa using hper)
      rw [if_pos hmem]
      obtain ⟨st2, hst2⟩ := ih
        ((fun k => if k = p then st.1 k ++ [child] else st.1 k),
         (fun k => if k = child then st.2 k + 1 else st.2 k))
        (fun p2 hp2 => h p2 (by simp [hp2]))
      exact ⟨st2, hst2⟩

theorem buildOuter_total (names : List String) :
    ∀ (l : List (String × Entry))
      (st : (String → List String) × (String → Int)),
      (∀ ce ∈ l, ∀ p ∈ ce.2.dependencies, hasPeriod p = false →
        names.contains p = true) →
      ∃ st2, l.foldlM (fun s ce => ce.2.dependencies.foldlM
        (fun s2 p => buildStep names s2 ce.1 p) s) st = some st2 := by
  intro l
  induction l with
  | nil =>
    intro st h
    exact ⟨st, rfl⟩
  | cons ce l2 ih =>
    intro st h
    rw [List.foldlM_cons]
    obtain ⟨st1, hst1⟩ := buildInner_total names ce.1 ce.2.dependencies st
      (h ce (by simp))
    obtain ⟨st2, hst2⟩ := ih st1 (fun ce2 hce2 => h ce2 (by simp [hce2]))
    refine ⟨st2, ?_⟩
    rw [hst1]
    exact hst2

theorem buildGraph_total (ps : Prompts)
    (hval : validate_dependencies ps = true) :
    ∃ g indeg, buildGraph ps = some (g, indeg) := by
  unfold validate_dependencies at hval
  rw [validateAllDeps_eq_true] at hval
  obtain ⟨st2, hst2⟩ := buildOuter_total (keysOf ps) ps.entries
    ((fun _ => []), (fun _ => 0))
    (fun ce hce p hp hper =>
      ((validateDeps_eq_true (keysOf ps) ce.1 ce.2.dependencies).mp
        (hval ce hce) p hp).2 hper)
  exact ⟨st2.1, st2.2, hst2⟩

theorem alookup_mem {α : Type} (l : List (String × α)) (k : String) (v : α)
    (h : alookup l k = some v) : (k, v) ∈ l := by
  induction l with
  | nil => simp [alookup] at h
  | cons p rest ih =>
    rw [alookup] at h
    by_cases hp : p.1 = k
    · rw [if_pos hp] at h
      obtain hv := Option.some.inj h
      have hpe : p = (k, v) := Prod.ext hp hv
      exact List.mem_cons.mpr (Or.inl hpe.symm)
    · rw [if_neg hp] at h
      exact List.mem_cons.mpr (Or.inr (ih h))

theorem resolveAll_keys (ps : Prompts) :
    ∀ (topo : List String) (rs rsF : RState),
      resolveAll ps topo rs = some (.ok rsF) →
      ∀ k, (alookup rsF.cmds k).isSome = true →
        (alookup rs.cmds k).isSome = true ∨ k ∈ topo := by
  intro topo
  induction topo with
  | nil =>
    intro rs rsF h k hk
    rw [resolveAll] at h
    obtain rfl := Except.ok.inj (Option.some.inj h)
    exact Or.inl hk
  | cons n rest ih =>
    intro rs rsF h k hk
    rw [resolveAll] at h
    rcases hrn : resolveNode ps rs n with - | r <;> rw [hrn] at h <;>
      (try dsimp only at h)
    · exact absurd h (by simp)
    · rcases r with m | rs1
      · exact absurd h (by simp)
      · obtain ⟨entry, c, v, he, hc, hv, hshape⟩ :=
          resolveNode_ok_shape ps rs n rs1 hrn
        rcases ih rs1 rsF h k hk with hsome1 | hmem
        · subst hshape
          dsimp only at hsome1
          by_cases hkn : k = n
          · exact Or.inr (by simp [hkn])
          · rw [alookup_aset_ne _ _ _ _ hkn] at hsome1
            exact Or.inl hsome1
        · exact Or.inr (by simp [hmem])

/-- C2 (corrected): on a `PromptSet` with valid dependencies whose dot-free
dependency graph contains a cycle `C` (every member has a dot-free dependency
on another member), the resolution order is incomplete — no cycle node ever
drains from the pending queue — and no cyclic-dependency error is reported;
but `inherit_properties` does **not** complete: it can never return `True`,
because step 4 looks up the missing resolved entries (an uncaught `KeyError`,
`none` in this model) unless an ambiguity error aborted step 3 first. -/
theorem claim_C2 (ps : Prompts) (C : List String)
    (hnd : (keysOf ps).Nodup)
    (hval : validate_dependencies ps = true)
    (hC : C ≠ [])
    (hcyc : ∀ c ∈ C, ∃ e, alookup ps.entries c = some e ∧
      ∃ p, p ∈ C ∧ p ∈ e.dependencies ∧ hasPeriod p = false) :
    ∃ g indeg, buildGraph ps = some (g, indeg) ∧
      (∀ c ∈ C, c ∉ topoOrderOf ps g indeg) ∧
      (∀ errs ps2, inherit_properties ps ≠ some (true, errs, ps2)) := by
  obtain ⟨g, indeg, hbg⟩ := buildGraph_total ps hval
  obtain ⟨f1, f2, f3⟩ := buildGraph_facts ps g indeg hnd hbg
  have HSC : ∀ c ∈ C, c ∈ keysOf ps := by
    intro c hc
    obtain ⟨e, he, -⟩ := hcyc c hc
    by_contra hnotin
    rw [(alookup_eq_none ps.entries c).mpr hnotin] at he
    exact absurd he (by simp)
  have HS3 : ∀ c ∈ C, ∃ q, q ∈ C ∧ 1 ≤ (g q).count c := by
    intro c hc
    obtain ⟨e, he, q, hqC, hqdep, hqper⟩ := hcyc c hc
    exact ⟨q, hqC, f3 (c, e) (alookup_mem ps.entries c e he) q hqdep hqper⟩
  have htopo : ∀ c ∈ C, c ∉ topoOrderOf ps g indeg := by
    unfold topoOrderOf
    apply topoLoop_cycle g (keysOf ps) C f2 HS3 HSC
    · simpa using hnd.filter _
    · intro x hx
      rcases hx with hx | hx
      · have hx2 : indeg x = 0 := by simpa using (List.mem_filter.mp hx).2
        omega
      · simp at hx
    · intro x hx
      rcases hx with hx | hx
      · exact (List.mem_filter.mp hx).1
      · simp at hx
    · intro c hc
      refine ⟨?_, by simp⟩
      intro hcq
      have hz : indeg c = 0 := by
        simpa using (List.mem_filter.mp hcq).2
      obtain ⟨q, hqC, hq1⟩ := HS3 c hc
      have hqn : q ∈ keysOf ps := HSC q hqC
      have hle : (g q).count c ≤ cntAll g (keysOf ps) c := by
        have := sum_map_le_of_nodup_subset (fun p => (g p).count c) [q]
          (List.nodup_singleton q) (keysOf ps) (by simpa using hqn)
        simpa [cntAll] using this
      have := f1 c
      omega
    · intro c hc
      rw [f1 c]
      have h0 : cntAll g [] c = 0 := rfl
      rw [h0]
      omega
  refine ⟨g, indeg, hbg, htopo, ?_⟩
  intro errs ps2 hcontra
  unfold inherit_properties at hcontra
  rw [hbg] at hcontra
  dsimp only at hcontra
  rcases hra : resolveAll ps (topoOrderOf ps g indeg) ⟨[], [], []⟩
      with - | r <;> rw [hra] at hcontra <;> (try dsimp only at hcontra)
  · exact absurd hcontra (by simp)
  · rcases r with m | rs
    · exact absurd hcontra (by simp)
    · dsimp only at hcontra
      rcases hwb : writeBack rs ps.entries with - | l2 <;>
        rw [hwb] at hcontra <;> (try dsimp only at hcontra)
      · exact absurd hcontra (by simp)
      · obtain ⟨-, hsome⟩ := writeBack_eq rs ps.entries l2 hwb
        obtain ⟨c0, hc0⟩ := List.exists_mem_of_ne_nil C hC
        obtain ⟨e0, he0, -⟩ := hcyc c0 hc0
        have hpair : (c0, e0) ∈ ps.entries := alookup_mem ps.entries c0 e0 he0
        have hcsome : (alookup rs.cmds c0).isSome = true := (hsome _ hpair).1
        rcases resolveAll_keys ps (topoOrderOf ps g indeg) ⟨[], [], []⟩ rs
            hra c0 hcsome with habs | hmem
        · simp [alookup] at habs
        · exact htopo c0 hc0 hmem

/-- The claim as frozen is false: on the concrete two-node cycle
`a -> b -> a` the resolver does not "complete without a reported error" —
the topological order stays empty, step 3 resolves nothing, and step 4
crashes looking up `resolved_cmds["a"]` (an uncaught `KeyError`, `none` in
this model). -/
theorem claim_C2_counterexample :
    inherit_properties Examples.cyclePS = none := by decide

theorem claim_C2_witness :
    ∃ g indeg, buildGraph Examples.cyclePS = some (g, indeg) ∧
      (∀ c ∈ ["a", "b"], c ∉ topoOrderOf Examples.cyclePS g indeg) ∧
      (∀ errs ps2, inherit_properties Examples.cyclePS ≠
        some (true, errs, ps2)) :=
  claim_C2 Examples.cyclePS ["a", "b"] (by decide) (by decide) (by decide)
    (by
      intro c hc
      rcases List.mem_cons.mp hc with rfl | hc2
      · exact ⟨⟨"a", ["b"], "t", (1, 0), [], [], 0⟩, by decide,
          "b", by decide, by decide, by decide⟩
      · rcases List.mem_cons.mp hc2 with rfl | hc3
        · exact ⟨⟨"b", ["a"], "t", (2, 0), [], [], 0⟩, by decide,
            "a", by decide, by decide, by decide⟩
        · simp at hc3)

end LLMake
